import Mathlib

/-!
Shallow embedding of the tagging-service job-lifecycle core.

The TypeScript source is embedded as executable Lean definitions:
JavaScript strings become `String` (character handling is modelled on the
ASCII fragment that the normalization regexes operate on), JavaScript
numbers used as timestamps or sizes become `Int`/`Nat`, fallible calls
return `Except`/`Option`, and the SQLite tables become lists of row
structures.  ISO-8601 timestamp columns are modelled by their epoch
millisecond values; the mapping is strictly monotone, so `ORDER BY` on
the text column and ordering the integers agree.
-/

namespace Tagging

/-! ## Characters and low-level string helpers (src/jobs/tagNormalization.ts)

`normalizeKey` lowercases, replaces runs of characters outside `[a-z0-9]`
with `_` (the regex `/[^a-z0-9]+/g`) and strips leading and trailing `_`
(the regex `/^_+|_+$/g`).  `normalizeValue` trims and lowercases.  The
JavaScript `toLowerCase`/`trim` act on all of Unicode; every character the
key regex can keep is ASCII, and the embedding models the ASCII behaviour
of both. -/

/-- ASCII whitespace recognised by the model of `String.prototype.trim`. -/
def isWsChar (c : Char) : Bool :=
  c.toNat == 32 || c.toNat == 9 || c.toNat == 10 || c.toNat == 11 ||
    c.toNat == 12 || c.toNat == 13

/-- Model of `toLowerCase` on one character: map `A`–`Z` to `a`–`z`. -/
def lowerChar (c : Char) : Char :=
  if 65 ≤ c.toNat ∧ c.toNat ≤ 90 then Char.ofNat (c.toNat + 32) else c

/-- Characters kept by the key regex `/[^a-z0-9]+/`: lowercase letters and
digits. -/
def isKeyChar (c : Char) : Bool :=
  (97 ≤ c.toNat && c.toNat ≤ 122) || (48 ≤ c.toNat && c.toNat ≤ 57)

/-- Drop matching characters from the end of a list (the `_+$` and
trailing-whitespace part of the regexes). -/
def dropTrailing (p : Char → Bool) (l : List Char) : List Char :=
  (l.reverse.dropWhile p).reverse

/-- Strip matching characters from both ends of a list; shared shape of
`trim` and of the regex `/^_+|_+$/g`. -/
def trimEnds (p : Char → Bool) (l : List Char) : List Char :=
  dropTrailing p (l.dropWhile p)

/-- Model of `String.prototype.trim` on the character list. -/
def trimChars (l : List Char) : List Char :=
  trimEnds isWsChar l

/-- Replace each maximal run of non-`[a-z0-9]` characters by a single `_`:
the flag records whether the previous input character was part of a run
whose `_` has already been emitted. -/
def squashRuns : Bool → List Char → List Char
  | _, [] => []
  | inRun, c :: rest =>
    if isKeyChar c then c :: squashRuns false rest
    else if inRun then squashRuns true rest
    else '_' :: squashRuns true rest

/-- Strip leading and trailing underscores (the regex `/^_+|_+$/g`). -/
def trimUnderscores (l : List Char) : List Char :=
  trimEnds (fun c => c == '_') l

/-- Characters that can appear in a squashed key: kept alphanumerics and
the inserted `_`. -/
def isKeyOrU (c : Char) : Bool := isKeyChar c || c == '_'

/-- No two adjacent underscores; invariant of the output of `squashRuns`. -/
def noAdjU : List Char → Bool
  | [] => true
  | [_] => true
  | a :: b :: t => !(a == '_' && b == '_') && noAdjU (b :: t)

/-- `normalizeKey` from src/jobs/tagNormalization.ts:
`key.trim().toLowerCase().replace(/[^a-z0-9]+/g, '_').replace(/^_+|_+$/g, '')`. -/
def normalizeKey (key : String) : String :=
  String.mk (trimUnderscores (squashRuns false ((trimChars key.data).map lowerChar)))

/-- `normalizeValue` from src/jobs/tagNormalization.ts:
`value.trim().toLowerCase()`. -/
def normalizeValue (value : String) : String :=
  String.mk ((trimChars value.data).map lowerChar)

/-! ## Tag payloads and normalization -/

/-- In-flight tag value object (`TagPayload` in src/jobs/types.ts).
Confidence is a JavaScript number; it is modelled as a rational.  `NaN` is
not representable here, and `clampConfidence` maps `NaN` to `undefined`
at the first application, so the `NaN` branch only shrinks the domain. -/
structure TagPayload where
  key : String
  value : String
  confidence : Option ℚ := none
deriving DecidableEq, Repr

/-- Per-file tag list (`FileTagPayload` in src/jobs/types.ts). -/
structure FileTagPayload where
  path : String
  tags : List TagPayload
deriving DecidableEq, Repr

/-- `clampConfidence` from src/jobs/tagNormalization.ts: `undefined` stays
absent, negatives clamp to 0, values above 1 clamp to 1. -/
def clampConfidence : Option ℚ → Option ℚ
  | none => none
  | some c => if c < 0 then some 0 else if 1 < c then some 1 else some c

/-- Signature string used for deduplication: `` `${key}:${value}` ``. -/
def tagSignature (key value : String) : String := key ++ ":" ++ value

/-- Loop body of `normalizeRepositoryTags`, threading the `seen` set of
signatures (modelled as the list of inserted strings). -/
def normalizeRepositoryTagsAux (seen : List String) :
    List TagPayload → List TagPayload
  | [] => []
  | tag :: rest =>
    let key := normalizeKey tag.key
    let value := normalizeValue tag.value
    if key = "" ∨ value = "" then normalizeRepositoryTagsAux seen rest
    else
      let signature := tagSignature key value
      if signature ∈ seen then normalizeRepositoryTagsAux seen rest
      else ⟨key, value, clampConfidence tag.confidence⟩ ::
        normalizeRepositoryTagsAux (signature :: seen) rest

/-- `normalizeRepositoryTags` from src/jobs/tagNormalization.ts. -/
def normalizeRepositoryTags (tags : List TagPayload) : List TagPayload :=
  normalizeRepositoryTagsAux [] tags

/-- `normalizeFileTags` from src/jobs/tagNormalization.ts: normalize each
file tag list and drop files whose list becomes empty. -/
def normalizeFileTags (fileTags : List FileTagPayload) : List FileTagPayload :=
  (fileTags.map (fun file => ⟨file.path, normalizeRepositoryTags file.tags⟩)).filter
    (fun file => !file.tags.isEmpty)

/-! ## Tag diff (src/jobs/tagDiff.ts) -/

/-- Removal entry `{key, value}`. -/
structure KeyValue where
  key : String
  value : String
deriving DecidableEq, Repr

/-- Result of `diffRepositoryTags`. -/
structure RepositoryTagDiff where
  apply : List TagPayload
  remove : List KeyValue
deriving Repr

/-- `diffRepositoryTags` from src/jobs/tagDiff.ts: apply every new tag;
remove the existing tags whose `` `${key}:${value}` `` signature does not
occur among the new tags. -/
def diffRepositoryTags (newTags : List TagPayload)
    (existingTags : List TagPayload := []) : RepositoryTagDiff :=
  let newSignatures := newTags.map (fun tag => tagSignature tag.key tag.value)
  { apply := newTags
    remove := (existingTags.filter
        (fun tag => !(newSignatures.contains (tagSignature tag.key tag.value)))).map
      (fun tag => ⟨tag.key, tag.value⟩) }

/-- Result of `diffFileTags`. -/
structure FileTagDiff where
  apply : List FileTagPayload
  remove : List FileTagPayload
deriving Repr

/-- `diffFileTags` from src/jobs/tagDiff.ts: the file explorer does not
supply existing tags, so everything is applied and nothing removed. -/
def diffFileTags (newTags : List FileTagPayload)
    (_existing : List FileTagPayload := []) : FileTagDiff :=
  { apply := newTags, remove := [] }

/-- Signature of a tag payload, as used by both normalization and diff. -/
def sigOf (t : TagPayload) : String := tagSignature t.key t.value

/-- A tag payload that normalization can emit: key and value are fixed
points of the per-field normalizers, both non-empty, and the confidence is
already clamped. -/
def TagNormalized (t : TagPayload) : Prop :=
  normalizeKey t.key = t.key ∧ normalizeValue t.value = t.value ∧
    t.key ≠ "" ∧ t.value ≠ "" ∧ clampConfidence t.confidence = t.confidence

end Tagging

namespace Tagging

/-! ## Repository metadata tags and the worker-side filter
(src/events/subscriber.ts, `selectTaggingServiceTags`) -/

/-- Tag attached to catalog repository metadata (`RepositoryMetadataTag` in
src/jobs/types.ts).  `source` is optional in the wire format; a present but
empty string is distinct from an absent one. -/
structure RepositoryMetadataTag where
  key : String
  value : String
  source : Option String := none
deriving DecidableEq, Repr

/-- The `source` this service stamps on tags it writes. -/
def SOURCE : String := "tagging-service"

/-- JavaScript falsiness of the optional `source` string: `!tag.source` is
true for `undefined`, `null` and the empty string. -/
def isFalsyStr : Option String → Bool
  | none => true
  | some s => s == ""

/-- `selectTaggingServiceTags` from src/events/subscriber.ts: keep the
metadata tags passing `!tag.source || tag.source === SOURCE`, forget the
source, and normalize. -/
def selectTaggingServiceTags (tags : List RepositoryMetadataTag) : List TagPayload :=
  normalizeRepositoryTags
    ((tags.filter (fun tag => isFalsyStr tag.source || tag.source == some SOURCE)).map
      (fun tag => ⟨tag.key, tag.value, none⟩))

/-- Spec-worded variant of the worker-side filter, for comparison with the
code: keep exactly the tags whose source is absent or equal to
`"tagging-service"`. -/
def selectTaggingServiceTagsClaim (tags : List RepositoryMetadataTag) : List TagPayload :=
  normalizeRepositoryTags
    ((tags.filter (fun tag => tag.source == none || tag.source == some SOURCE)).map
      (fun tag => ⟨tag.key, tag.value, none⟩))

/-! ## Audit store (src/db/jobStore.ts)

The SQLite tables are modelled as lists of rows.  `TEXT` timestamp columns
hold ISO-8601 strings in the source; they are embedded as epoch
milliseconds (`Int`), which preserves both `ORDER BY` (the ISO format is
lexicographically monotone) and the arithmetic `Date.now() - completed`. -/

/-- Job and run status values. -/
inductive JobStatus where
  | queued
  | running
  | succeeded
  | failed
deriving DecidableEq, Repr

/-- Row of the `jobs` table. -/
structure JobRow where
  id : Nat
  repository_id : String
  status : JobStatus
  last_run_at : Option Int
  runs : Nat
  created_at : Int
  updated_at : Int
deriving DecidableEq, Repr

/-- Row of the `job_runs` table (the columns the recency predicate and the
claims read). -/
structure JobRunRow where
  id : Nat
  job_id : Nat
  status : JobStatus
  started_at : Int
  completed_at : Option Int
  error_message : Option String := none
  prompt : Option String := none
  latency_ms : Option Int := none
  raw_response : Option String := none
deriving DecidableEq, Repr

/-- Audit store contents. -/
structure AuditDb where
  jobs : List JobRow
  runs : List JobRunRow
deriving Repr

/-- Next `AUTOINCREMENT` id for the jobs table. -/
def nextJobId (db : List JobRow) : Nat :=
  (db.map (fun row => row.id)).foldr max 0 + 1

/-- `upsertJob` from src/db/jobStore.ts: `INSERT ... ON CONFLICT(repository_id)
DO UPDATE SET updated_at = excluded.updated_at`.  On first insert the row is
created with status `queued`, `runs = 0` and both timestamps set to now; on
conflict only `updated_at` is written (the `AFTER UPDATE` trigger rewrites
the same column with the database clock). -/
def upsertJob (db : List JobRow) (repositoryId : String) (now : Int) : List JobRow :=
  if db.any (fun row => row.repository_id == repositoryId) then
    db.map (fun row =>
      if row.repository_id == repositoryId then { row with updated_at := now } else row)
  else
    db ++ [{ id := nextJobId db, repository_id := repositoryId, status := .queued,
             last_run_at := none, runs := 0, created_at := now, updated_at := now }]

/-- Filter of `getLatestSuccessfulRun`: runs joined to the job with the
given repository id and having status `succeeded`. -/
def isSuccessfulRunFor (db : AuditDb) (repositoryId : String) (jr : JobRunRow) : Bool :=
  jr.status == .succeeded &&
    db.jobs.any (fun j => j.id == jr.job_id && j.repository_id == repositoryId)

/-- Ordering used by `ORDER BY jr.completed_at DESC LIMIT 1`: a row comes
strictly earlier in the result when its `completed_at` is strictly larger;
SQLite sorts `NULL` below every value, hence last under `DESC`. -/
def laterCompleted (a b : JobRunRow) : Bool :=
  match a.completed_at, b.completed_at with
  | some x, some y => y < x
  | some _, none => true
  | none, _ => false

/-- `getLatestSuccessfulRun` from src/db/jobStore.ts: the successful run of
the repository with the maximal `completed_at` (ties resolved to the first
row scanned, as the unordered SQLite sort does). -/
def getLatestSuccessfulRun (db : AuditDb) (repositoryId : String) : Option JobRunRow :=
  (db.runs.filter (isSuccessfulRunFor db repositoryId)).foldl
    (fun acc jr =>
      match acc with
      | none => some jr
      | some best => if laterCompleted jr best then some jr else acc)
    none

/-- `hasRecentSuccessfulRun` from src/db/jobStore.ts: look only at the
latest successful run; false when there is none or its `completed_at` is
null; otherwise require `0 ≤ now − completedAt ≤ maxAgeMs`. -/
def hasRecentSuccessfulRun (db : AuditDb) (now : Int) (repositoryId : String)
    (maxAgeMs : Int) : Bool :=
  match getLatestSuccessfulRun db repositoryId with
  | none => false
  | some latest =>
    match latest.completed_at with
    | none => false
    | some completed =>
      decide (0 ≤ now - completed ∧ now - completed ≤ maxAgeMs)

/-- Spec-worded recency predicate, for comparison with the code: SOME
successful run with non-null `completedAt` has age within the window. -/
def existsRecentSuccessfulRun (db : AuditDb) (now : Int) (repositoryId : String)
    (maxAgeMs : Int) : Bool :=
  db.runs.any (fun jr =>
    isSuccessfulRunFor db repositoryId jr &&
      match jr.completed_at with
      | none => false
      | some completed => decide (0 ≤ now - completed ∧ now - completed ≤ maxAgeMs))

/-! ## Deterministic job ids (src/queue/index.ts)

`taggingJobId` is `` `tagging-${sha1Hex(repositoryId)}` ``.  SHA-1 is
implemented here over the UTF-8 bytes of the id, with 32-bit words as
naturals reduced mod `2^32`; the bitwise operations are written
arithmetically so concrete digests evaluate inside the kernel. -/

/-- Combine two naturals bit by bit over `fuel` low bits. -/
def bitOp (f : Bool → Bool → Bool) : Nat → Nat → Nat → Nat
  | 0, _, _ => 0
  | fuel + 1, a, b =>
    (if f (a % 2 == 1) (b % 2 == 1) then 1 else 0) + 2 * bitOp f fuel (a / 2) (b / 2)

/-- 32-bit exclusive or. -/
def xor32 (a b : Nat) : Nat := bitOp bne 32 a b

/-- 32-bit conjunction. -/
def and32 (a b : Nat) : Nat := bitOp and 32 a b

/-- 32-bit disjunction. -/
def or32 (a b : Nat) : Nat := bitOp or 32 a b

/-- 32-bit complement. -/
def not32 (a : Nat) : Nat := 4294967295 - a % 4294967296

/-- Rotate a 32-bit word left by `n` bits. -/
def rotl32 (n : Nat) (x : Nat) : Nat :=
  ((x % 4294967296) * 2 ^ n + (x % 4294967296) / 2 ^ (32 - n)) % 4294967296

/-- SHA-1 round constants. -/
def sha1K (t : Nat) : Nat :=
  if t < 20 then 1518500249
  else if t < 40 then 1859775393
  else if t < 60 then 2400959708
  else 3395469782

/-- SHA-1 round functions. -/
def sha1F (t b c d : Nat) : Nat :=
  if t < 20 then or32 (and32 b c) (and32 (not32 b) d)
  else if t < 40 then xor32 (xor32 b c) d
  else if t < 60 then or32 (or32 (and32 b c) (and32 b d)) (and32 c d)
  else xor32 (xor32 b c) d

/-- Message padding: `0x80`, zeros to 56 mod 64 bytes, then the bit length
as eight big-endian bytes. -/
def sha1Pad (msg : List Nat) : List Nat :=
  let len := msg.length
  let bitLen := 8 * len
  let zeros := (64 - (len + 9) % 64) % 64
  msg ++ [128] ++ List.replicate zeros 0 ++
    [bitLen / 2 ^ 56 % 256, bitLen / 2 ^ 48 % 256, bitLen / 2 ^ 40 % 256,
     bitLen / 2 ^ 32 % 256, bitLen / 2 ^ 24 % 256, bitLen / 2 ^ 16 % 256,
     bitLen / 2 ^ 8 % 256, bitLen % 256]

/-- Big-endian 4-byte groups to 32-bit words. -/
def bytesToWords : List Nat → List Nat
  | b0 :: b1 :: b2 :: b3 :: rest =>
    (((b0 * 256 + b1) * 256 + b2) * 256 + b3) :: bytesToWords rest
  | _ => []

/-- One schedule-extension step: append
`rotl1 (w[i-3] xor w[i-8] xor w[i-14] xor w[i-16])`. -/
def sha1Extend (w : Array Nat) : Array Nat :=
  w.push (rotl32 1 (xor32 (xor32 (w.getD (w.size - 3) 0) (w.getD (w.size - 8) 0))
    (xor32 (w.getD (w.size - 14) 0) (w.getD (w.size - 16) 0))))

/-- Expand a 16-word block to the 80-word schedule. -/
def sha1Schedule (w16 : List Nat) : List Nat :=
  ((List.range 64).foldl (fun acc _ => sha1Extend acc) w16.toArray).toList

/-- Working state of the compression function. -/
abbrev Sha1State := Nat × Nat × Nat × Nat × Nat

/-- One compression round at position `t` with schedule word `w`. -/
def sha1Round (st : Sha1State) (t w : Nat) : Sha1State :=
  let (a, b, c, d, e) := st
  ((rotl32 5 a + sha1F t b c d + e + sha1K t + w) % 4294967296,
    a, rotl32 30 b, c, d)

/-- Compress one 16-word block into the running hash state. -/
def sha1Compress (h : Sha1State) (w16 : List Nat) : Sha1State :=
  let final := (sha1Schedule w16).enum.foldl (fun st tw => sha1Round st tw.1 tw.2) h
  ((h.1 + final.1) % 4294967296,
   (h.2.1 + final.2.1) % 4294967296,
   (h.2.2.1 + final.2.2.1) % 4294967296,
   (h.2.2.2.1 + final.2.2.2.1) % 4294967296,
   (h.2.2.2.2 + final.2.2.2.2) % 4294967296)

/-- Fold the compression function over `fuel` consecutive 16-word blocks. -/
def sha1Blocks : Nat → List Nat → Sha1State → Sha1State
  | 0, _, h => h
  | fuel + 1, ws, h => sha1Blocks fuel (ws.drop 16) (sha1Compress h (ws.take 16))

/-- SHA-1 initial state. -/
def sha1Init : Sha1State :=
  (1732584193, 4023233417, 2562383102, 271733878, 3285377520)

/-- Big-endian bytes of one 32-bit word. -/
def wordBytes (w : Nat) : List Nat :=
  [w / 2 ^ 24 % 256, w / 2 ^ 16 % 256, w / 2 ^ 8 % 256, w % 256]

/-- SHA-1 digest (20 bytes) of a byte sequence. -/
def sha1Digest (msg : List Nat) : List Nat :=
  let padded := sha1Pad msg
  let h := sha1Blocks (padded.length / 64) (bytesToWords padded) sha1Init
  wordBytes h.1 ++ wordBytes h.2.1 ++ wordBytes h.2.2.1 ++
    wordBytes h.2.2.2.1 ++ wordBytes h.2.2.2.2

/-- Lowercase hexadecimal digit. -/
def hexChar (n : Nat) : Char :=
  Char.ofNat (if n < 10 then 48 + n else 87 + n)

/-- Two hex digits of one byte. -/
def byteToHex (b : Nat) : List Char :=
  [hexChar (b / 16), hexChar (b % 16)]

/-- Hex encoding of a byte sequence (`digest('hex')`). -/
def bytesToHex (bs : List Nat) : String :=
  String.mk (bs.map byteToHex).flatten

/-- UTF-8 bytes of a string (`createHash('sha1').update(repositoryId)`
hashes the UTF-8 encoding). -/
def utf8Bytes (s : String) : List Nat :=
  ((s.data.map String.utf8EncodeChar).flatten).map (fun b => b.toNat)

/-- `taggingJobId` from src/queue/index.ts:
`` `tagging-${createHash('sha1').update(repositoryId).digest('hex')}` ``. -/
def taggingJobId (repositoryId : String) : String :=
  "tagging-" ++ bytesToHex (sha1Digest (utf8Bytes repositoryId))

/-! ## JSON values and event normalization (src/events/subscriber.ts)

Inbound pub/sub messages are `JSON.parse` results.  Numbers are modelled
as integers (no claim depends on fractional values); the fields of a
parsed object are distinct, so first-match lookup models property
access. -/

/-- Parsed JSON value. -/
inductive Json where
  | null
  | bool (b : Bool)
  | num (n : Int)
  | str (s : String)
  | arr (elems : List Json)
  | obj (fields : List (String × Json))

/-- Property access `x[name]`: `undefined` (`none`) on anything that is
not an object with that key. -/
def getField : Json → String → Option Json
  | .obj fields, name => (fields.find? (fun f => f.1 == name)).map (fun f => f.2)
  | _, _ => none

/-- JavaScript truthiness of a JSON value. -/
def jsTruthy : Json → Bool
  | .null => false
  | .bool b => b
  | .num n => n != 0
  | .str s => s != ""
  | .arr _ => true
  | .obj _ => true

/-- `typeof x === 'object'` for JSON values (`null`, arrays and objects). -/
def isObjectType : Json → Bool
  | .null => true
  | .arr _ => true
  | .obj _ => true
  | _ => false

/-- Field access guarded by `typeof ... === 'string'`. -/
def getStrField (j : Json) (name : String) : Option String :=
  match getField j name with
  | some (.str s) => some s
  | _ => none

/-- String-typed JSON value. -/
def jsonAsStr : Json → Option String
  | .str s => some s
  | _ => none

/-- Model of `String.prototype.startsWith` (structural, so concrete
messages evaluate by reduction). -/
def startsWithStr (pre s : String) : Bool := pre.data.isPrefixOf s.data

/-- Result of `normalizeEvent`.  The legacy branch copies
`payload.repository.id`/`ingestStatus` without a `typeof` check, so the
carried values are JSON values, not necessarily strings. -/
structure NormalizedEvent where
  eventName : String
  repositoryId : Json
  ingestStatus : Option Json

/-- Envelope-branch resolution of repository id and ingest status from
`event.data`: start from `data.repository.{id, ingestStatus}` (string-typed),
then, while the current value is still falsy (`undefined` or the empty
string), fall back to `data.{repositoryId, ingestStatus}` and finally to
`data.event.{repositoryId, status}`. -/
def resolveEnvelopeIds (data : Json) : Option String × Option String :=
  let repoObj : Option Json :=
    match getField data "repository" with
    | some repo => if jsTruthy repo && isObjectType repo then some repo else none
    | none => none
  let rid0 := repoObj.bind (fun r => getStrField r "id")
  let ist0 := repoObj.bind (fun r => getStrField r "ingestStatus")
  let rid1 := if isFalsyStr rid0 then getStrField data "repositoryId" <|> rid0 else rid0
  let ist1 := if isFalsyStr ist0 then getStrField data "ingestStatus" <|> ist0 else ist0
  let nested : Option Json :=
    match getField data "event" with
    | some ev2 => if jsTruthy ev2 && isObjectType ev2 then some ev2 else none
    | none => none
  let rid2 := if isFalsyStr rid1 then (nested.bind (fun n => getStrField n "repositoryId")) <|> rid1
    else rid1
  let ist2 := if isFalsyStr ist1 then (nested.bind (fun n => getStrField n "status")) <|> ist1
    else ist1
  (rid2, ist2)

/-- `EventSubscriber.normalizeEvent` from src/events/subscriber.ts.  A
string-typed top-level `event` selects the legacy branch; an object-typed
truthy one selects the envelope branch.  The result is dropped unless the
event name starts with `repository.` and the resolved repository id is
truthy. -/
def normalizeEvent (parsed : Json) : Option NormalizedEvent :=
  let triple : Option String × Option Json × Option Json :=
    match getField parsed "event" with
    | some (.str s) =>
      let repo := (getField parsed "payload").bind (fun p => getField p "repository")
      (some s, repo.bind (fun r => getField r "id"),
        repo.bind (fun r => getField r "ingestStatus"))
    | some ev =>
      if jsTruthy parsed && isObjectType parsed && jsTruthy ev && isObjectType ev then
        let eventName := getStrField ev "type"
        match getField ev "data" with
        | some data =>
          if jsTruthy data && isObjectType data then
            let ids := resolveEnvelopeIds data
            (eventName, ids.1.map Json.str, ids.2.map Json.str)
          else (eventName, none, none)
        | none => (eventName, none, none)
      else (none, none, none)
    | none => (none, none, none)
  match triple with
  | (some eventName, rid, ingestStatus) =>
    if startsWithStr "repository." eventName then
      match rid with
      | some repositoryId =>
        if jsTruthy repositoryId then some ⟨eventName, repositoryId, ingestStatus⟩
        else none
      | none => none
    else none
  | (none, _, _) => none

/-- Spec-worded event name: the top-level `event` when it is a string,
otherwise `event.type`. -/
def claimEventName (parsed : Json) : Option String :=
  match getField parsed "event" with
  | some (.str s) => some s
  | some ev => getStrField ev "type"
  | none => none

/-- Spec-worded repository id resolution applied to every message:
`event.data.repository.id`, then `event.data.repositoryId`, then
`event.data.event.repositoryId`. -/
def claimResolveRepositoryId (parsed : Json) : Option String :=
  ((getField parsed "event").bind (fun ev => getField ev "data")).bind (fun data =>
    ((getField data "repository").bind (fun repo => getStrField repo "id"))
    <|> getStrField data "repositoryId"
    <|> ((getField data "event").bind (fun n => getStrField n "repositoryId")))

/-- Spec-worded ingest status resolution applied to every message:
`event.data.repository.ingestStatus`, then `event.data.ingestStatus`, then
`event.data.event.status`. -/
def claimResolveIngestStatus (parsed : Json) : Option String :=
  ((getField parsed "event").bind (fun ev => getField ev "data")).bind (fun data =>
    ((getField data "repository").bind (fun repo => getStrField repo "ingestStatus"))
    <|> getStrField data "ingestStatus"
    <|> ((getField data "event").bind (fun n => getStrField n "status")))

/-! ## Event admission (src/events/subscriber.ts, `handleMessage`) -/

/-- Provenance of a tagging job. -/
inductive Trigger where
  | event
  | manual
  | scheduler
deriving DecidableEq, Repr

/-- Queue payload (`TaggingJobData` in src/jobs/types.ts). -/
structure TaggingJobData where
  repositoryId : String
  trigger : Trigger
  reason : Option String := none
deriving DecidableEq, Repr

/-- Arguments of `queue.add(name, data, { jobId })`. -/
structure EnqueueRequest where
  name : String
  data : TaggingJobData
  jobId : String
deriving DecidableEq, Repr

/-- `RECENCY_WINDOW_MS` from src/events/subscriber.ts: twelve hours. -/
def RECENCY_WINDOW_MS : Int := 1000 * 60 * 60 * 12

/-- Strict comparison `ingestStatus === 'ready'` against the normalized
status value. -/
def isReadyStatus : Option Json → Bool
  | some (.str s) => s == "ready"
  | _ => false

/-- Observable outcome of `handleMessage` on one message: the event handed
to the registered repository listener, if any, and the enqueued job, if
any. -/
structure AdmissionResult where
  forwarded : Option NormalizedEvent
  enqueued : Option EnqueueRequest

/-- `EventSubscriber.handleMessage` from src/events/subscriber.ts.  The
message is `none` when `JSON.parse` failed (logged and dropped).  Every
normalized event is forwarded to the listener; only `repository.updated`
and `repository.ingestion-event` with ingest status `"ready"` and no
recent successful run within twelve hours enqueue a job.  A non-string
repository id never enqueues: no text row matches it in the recency query
and `createHash(...).update` then throws, which the message handler
catches and logs. -/
def handleMessage (db : AuditDb) (now : Int) (message : Option Json) : AdmissionResult :=
  match message with
  | none => ⟨none, none⟩
  | some parsed =>
    match normalizeEvent parsed with
    | none => ⟨none, none⟩
    | some ne =>
      let enq : Option EnqueueRequest :=
        if ne.eventName = "repository.updated" ∨ ne.eventName = "repository.ingestion-event"
        then
          if isReadyStatus ne.ingestStatus then
            match jsonAsStr ne.repositoryId with
            | some repoId =>
              if hasRecentSuccessfulRun db now repoId RECENCY_WINDOW_MS then none
              else some ⟨"tag-repository", ⟨repoId, .event, none⟩, taggingJobId repoId⟩
            | none => none
          else none
        else none
      ⟨some ne, enq⟩

/-! ## Worker pipeline errors (src/jobs/errors.ts) -/

/-- Errors crossing the worker pipeline: `TransientJobError`,
`PermanentJobError`, and every other thrown `Error`. -/
inductive JobError where
  | transient (message : String)
  | permanent (message : String)
  | other (message : String)
deriving DecidableEq, Repr

/-- The `message` property of the thrown error. -/
def JobError.message : JobError → String
  | .transient m => m
  | .permanent m => m
  | .other m => m

/-- `error instanceof TransientJobError`. -/
def JobError.isTransientError : JobError → Bool
  | .transient _ => true
  | _ => false

/-- `error instanceof PermanentJobError`. -/
def JobError.isPermanentError : JobError → Bool
  | .permanent _ => true
  | _ => false

/-! ## AI connector (src/clients/aiConnector.ts) -/

/-- `message` object of a completion choice; `content` may be missing at
runtime, and the empty string is falsy. -/
structure AiChoiceMessage where
  role : String
  content : Option String
deriving Repr

/-- One completion choice. -/
structure AiCompletionChoice where
  message : Option AiChoiceMessage
deriving Repr

/-- Token usage block. -/
structure AiUsage where
  prompt_tokens : Option Nat := none
  completion_tokens : Option Nat := none
deriving DecidableEq, Repr

/-- Decoded HTTP-level completion response. -/
structure AiCompletionResponse where
  choices : List AiCompletionChoice
  usage : Option AiUsage := none
deriving Repr

/-- Value returned by a successful `generateTags`. -/
structure AiGenerateResult where
  response : Json
  promptTokens : Option Nat
  completionTokens : Option Nat

/-- `Array.isArray` of an optional field value. -/
def isJsonArray : Option Json → Bool
  | some (.arr _) => true
  | _ => false

/-- `choice?.message?.content` of the first completion choice
(`apiResponse.choices?.[0]` with optional chaining). -/
def choiceContent (resp : AiCompletionResponse) : Option String :=
  (resp.choices.head?.bind (fun choice => choice.message)).bind (fun m => m.content)

/-- `AiConnectorClient.generateTags` from src/clients/aiConnector.ts,
parameterized by the outcome of the `httpRequest` call (any throw from it,
network-level or `HttpError`, arrives as `.error`) and by the `JSON.parse`
partial function. -/
def generateTags (parseJson : String → Option Json)
    (httpOutcome : Except String AiCompletionResponse) :
    Except JobError AiGenerateResult :=
  match httpOutcome with
  | .error _ => .error (.transient "AI connector request failed")
  | .ok apiResponse =>
    let content : Option String := choiceContent apiResponse
    if isFalsyStr content then .error (.permanent "AI connector returned no content")
    else
      match content with
      | none => .error (.permanent "AI connector returned no content")
      | some text =>
        match parseJson text with
        | none => .error (.permanent "AI connector response was not valid JSON")
        | some parsed =>
          if isJsonArray (getField parsed "repository_tags") then
            .ok ⟨parsed,
              (apiResponse.usage.bind (fun u => u.prompt_tokens)),
              (apiResponse.usage.bind (fun u => u.completion_tokens))⟩
          else .error (.permanent "AI connector response missing repository_tags array")

/-! ## Worker pipeline (src/jobs/taggingProcessor.ts region of
src/events/subscriber.ts, and src/workers/index.ts) -/

/-- Catalog repository metadata (`RepositoryMetadata` in src/jobs/types.ts;
`repositoryUrl` is the legacy field name). -/
structure RepositoryMetadata where
  id : String
  name : Option String := none
  repoUrl : Option String := none
  repositoryUrl : Option String := none
  defaultBranch : Option String := none
  readme : Option String := none
  description : Option String := none
  tags : Option (List RepositoryMetadataTag) := none
deriving Repr

/-- Typed view of the model response consumed by the processor; the
`?? []` guards of the source are modelled by `Option.getD`. -/
structure AiResponsePayload where
  repository_tags : Option (List TagPayload) := none
  file_tags : Option (List FileTagPayload) := none
deriving DecidableEq, Repr

/-- Successful model call as the processor sees it. -/
structure AiCallResult where
  response : AiResponsePayload
  promptTokens : Option Nat := none
  completionTokens : Option Nat := none
deriving DecidableEq, Repr

/-- Outcomes of the external collaborations of one `process` run, in
pipeline order.  Error payloads carry the thrown message (for the plain
`Error` cases) or the already-classified `JobError`; `applyFilesOutcome`
carries the failing file path.  `elapsedMs` is the measured
`Math.round(performance.now() - started)` of the run. -/
structure ProcessEnv where
  metadata : Except String RepositoryMetadata
  checkout : Except JobError Unit
  fileSummaries : Except JobError Unit
  promptResult : Except String String
  ai : Except JobError AiCallResult
  applyRepoOutcome : Except String Unit
  applyFilesOutcome : Except String Unit
  recordOutcome : Except String Unit
  elapsedMs : Int

/-- Lifecycle notification payloads published to pub/sub and the webhook. -/
inductive Published where
  | completed (repositoryId : String) (repositoryTags fileTags : Nat) (trigger : Trigger)
  | failed (repositoryId : String) (message : String) (trigger : Trigger) (transient : Bool)
deriving DecidableEq, Repr

/-- Arguments of `completeJobRun`. -/
structure CompleteArgs where
  status : JobStatus
  errorMessage : Option String := none
  prompt : Option String := none
  promptTokens : Option Nat := none
  completionTokens : Option Nat := none
  latencyMs : Int
  rawResponse : Option AiResponsePayload := none
deriving DecidableEq, Repr

/-- Observable audit and notification actions of one run, in program
order. -/
inductive AuditAction where
  | startRun
  | completeRun (args : CompleteArgs)
  | pubsub (event : Published)
  | webhook (event : Published)
deriving DecidableEq, Repr

/-- Value of a successful `process`. -/
structure ProcessSuccess where
  repositoryTags : List TagPayload
  fileTags : List FileTagPayload
  prompt : String
deriving DecidableEq, Repr

/-- Trace and outcome of one `process` run. -/
structure ProcessResult where
  trace : List AuditAction
  outcome : Except JobError ProcessSuccess

/-- The catch block of `TaggingProcessor.process`: seal the run as failed
with the error message, the measured latency, the prompt and raw response
variables as currently assigned, then publish `tagging.failed` with
`transient = error instanceof TransientJobError` to pub/sub and webhook,
and rethrow. -/
def failResult (env : ProcessEnv) (jobData : TaggingJobData) (prompt : Option String)
    (raw : Option AiResponsePayload) (e : JobError) : ProcessResult :=
  let sealArgs : CompleteArgs :=
    { status := .failed, errorMessage := some e.message, prompt := prompt,
      latencyMs := env.elapsedMs, rawResponse := raw }
  let evt : Published :=
    .failed jobData.repositoryId e.message jobData.trigger e.isTransientError
  { trace := [.startRun, .completeRun sealArgs, .pubsub evt, .webhook evt],
    outcome := .error e }

/-- `TaggingProcessor.process` from the worker pipeline: metadata fetch,
repoUrl check, checkout, file sampling, prompt assembly, model call,
normalization, diff, apply, audit record, seal, notify.  `applyRepositoryTags`
returns without calling the catalog when there is nothing to apply or
remove, and wraps a catalog failure in a `TransientJobError`; the per-file
loop of `applyFileTags` likewise only fails when there is a file to
apply. -/
def process (env : ProcessEnv) (jobData : TaggingJobData) : ProcessResult :=
  match env.metadata with
  | .error m => failResult env jobData none none (.other m)
  | .ok metadata =>
    if isFalsyStr (metadata.repoUrl <|> metadata.repositoryUrl) then
      failResult env jobData none none (.permanent "Repository metadata missing repoUrl")
    else
      match env.checkout with
      | .error e => failResult env jobData none none e
      | .ok _ =>
        match env.fileSummaries with
        | .error e => failResult env jobData none none e
        | .ok _ =>
          match env.promptResult with
          | .error m => failResult env jobData none none (.other m)
          | .ok prompt =>
            match env.ai with
            | .error e => failResult env jobData (some prompt) none e
            | .ok aiResult =>
              let rawResponse := aiResult.response
              let repositoryTags :=
                normalizeRepositoryTags (aiResult.response.repository_tags.getD [])
              let fileTags := normalizeFileTags (aiResult.response.file_tags.getD [])
              let taggingServiceTags := selectTaggingServiceTags (metadata.tags.getD [])
              let repoDiff := diffRepositoryTags repositoryTags taggingServiceTags
              let fileDiff := diffFileTags fileTags
              let applyRepo : Except JobError Unit :=
                if repoDiff.apply.isEmpty && repoDiff.remove.isEmpty then .ok ()
                else
                  match env.applyRepoOutcome with
                  | .error _ => .error (.transient "Failed to post repository tags to catalog")
                  | .ok _ => .ok ()
              match applyRepo with
              | .error e => failResult env jobData (some prompt) (some rawResponse) e
              | .ok _ =>
                let applyFiles : Except JobError Unit :=
                  if fileDiff.apply.isEmpty then .ok ()
                  else
                    match env.applyFilesOutcome with
                    | .error path =>
                      .error (.transient ("Failed to apply file tags for " ++ path))
                    | .ok _ => .ok ()
                match applyFiles with
                | .error e => failResult env jobData (some prompt) (some rawResponse) e
                | .ok _ =>
                  match env.recordOutcome with
                  | .error m =>
                    failResult env jobData (some prompt) (some rawResponse) (.other m)
                  | .ok _ =>
                    let sealArgs : CompleteArgs :=
                      { status := .succeeded, prompt := some prompt,
                        promptTokens := aiResult.promptTokens,
                        completionTokens := aiResult.completionTokens,
                        latencyMs := env.elapsedMs, rawResponse := some rawResponse }
                    let evt : Published :=
                      .completed jobData.repositoryId repositoryTags.length
                        ((fileTags.map (fun f => f.tags.length)).sum) jobData.trigger
                    { trace := [.startRun, .completeRun sealArgs, .pubsub evt,
                        .webhook evt],
                      outcome := .ok ⟨repositoryTags, fileTags, prompt⟩ }

/-- The prompt variable at the moment a failure is caught: assigned exactly
when every stage before the model call succeeded. -/
def promptComputed (env : ProcessEnv) : Option String :=
  match env.metadata with
  | .error _ => none
  | .ok metadata =>
    if isFalsyStr (metadata.repoUrl <|> metadata.repositoryUrl) then none
    else
      match env.checkout, env.fileSummaries, env.promptResult with
      | .ok _, .ok _, .ok prompt => some prompt
      | _, _, _ => none

/-- The raw-response variable at the moment a failure is caught: assigned
exactly when the model call had returned. -/
def rawReceived (env : ProcessEnv) : Option AiResponsePayload :=
  match promptComputed env with
  | none => none
  | some _ =>
    match env.ai with
    | .ok aiResult => some aiResult.response
    | .error _ => none

/-- Job-discard decision of the worker handler (src/workers/index.ts):
`if (error instanceof PermanentJobError) await job.discard()`, then the
error is rethrown so the queue sees a failed attempt. -/
def workerDiscardsJob (outcome : Except JobError ProcessSuccess) : Bool :=
  match outcome with
  | .error e => e.isPermanentError
  | .ok _ => false

/-! ## Derived views and concrete scenario inputs -/

/-- Envelope-branch resolution lifted to the `event` object: applied to
`event.data` when that is a truthy object, empty otherwise. -/
def envelopeResolvedIds (ev : Json) : Option String × Option String :=
  match getField ev "data" with
  | some data =>
    if jsTruthy data && isObjectType data then resolveEnvelopeIds data else (none, none)
  | none => (none, none)

/-- Legacy scenario message of the spec: `repository.updated` for `r1`
with ingest status `ready`. -/
def legacyReadyMsg : Json :=
  .obj [("event", .str "repository.updated"),
        ("payload", .obj [("repository",
          .obj [("id", .str "r1"), ("ingestStatus", .str "ready")])])]

/-- Normalization of `legacyReadyMsg`. -/
def legacyReadyEvent : NormalizedEvent :=
  ⟨"repository.updated", .str "r1", some (.str "ready")⟩

/-- Audit store with no rows. -/
def emptyDb : AuditDb := ⟨[], []⟩

/-- Audit store in which repository `r3` has an in-window successful run
(completed at 4000) shadowed by a later, future-dated successful run
(completed at 6000), relative to `now = 5000`. -/
def shadowedDb : AuditDb :=
  ⟨[⟨1, "r3", .succeeded, none, 2, 0, 0⟩],
   [⟨1, 1, .succeeded, 0, some 4000, none, none, none, none⟩,
    ⟨2, 1, .succeeded, 0, some 6000, none, none, none, none⟩]⟩

end Tagging

namespace Tagging

/-! ## Character-level lemmas -/

theorem toNat_ofNat_small {n : Nat} (h : n < 55296) : (Char.ofNat n).toNat = n := by
  have hv : n.isValidChar := Or.inl h
  rw [Char.ofNat, dif_pos hv]
  show (UInt32.ofNatCore n _).toNat = n
  simp [UInt32.toNat, UInt32.ofNatCore]

theorem lowerChar_eq_self {c : Char} (h : ¬(65 ≤ c.toNat ∧ c.toNat ≤ 90)) :
    lowerChar c = c := by
  simp only [lowerChar, if_neg h]

theorem toNat_lowerChar_upper {c : Char} (h : 65 ≤ c.toNat ∧ c.toNat ≤ 90) :
    (lowerChar c).toNat = c.toNat + 32 := by
  have hval : c.toNat < 55296 := by
    have := c.val.toNat_lt_size
    omega
  simp only [lowerChar, if_pos h]
  exact toNat_ofNat_small (by omega)

theorem lowerChar_idem (c : Char) : lowerChar (lowerChar c) = lowerChar c := by
  by_cases h : 65 ≤ c.toNat ∧ c.toNat ≤ 90
  · have ht := toNat_lowerChar_upper h
    exact lowerChar_eq_self (by omega)
  · rw [lowerChar_eq_self h, lowerChar_eq_self h]

theorem isWsChar_lowerChar (c : Char) : isWsChar (lowerChar c) = isWsChar c := by
  by_cases h : 65 ≤ c.toNat ∧ c.toNat ≤ 90
  · have ht := toNat_lowerChar_upper h
    have l1 : isWsChar (lowerChar c) = false := by
      simp only [isWsChar, ht, Bool.or_eq_false_iff, beq_eq_false_iff_ne]
      omega
    have l2 : isWsChar c = false := by
      simp only [isWsChar, Bool.or_eq_false_iff, beq_eq_false_iff_ne]
      omega
    rw [l1, l2]
  · rw [lowerChar_eq_self h]

theorem isKeyChar_not_underscore {c : Char} (h : isKeyChar c = true) :
    (c == '_') = false := by
  by_cases hc : c = '_'
  · subst hc
    exact absurd h (by decide)
  · exact beq_eq_false_iff_ne.mpr hc

theorem isKeyOrU_not_ws {c : Char} (h : isKeyOrU c = true) : isWsChar c = false := by
  rcases Bool.or_eq_true_iff.mp h with hk | hu
  · simp only [isKeyChar, Bool.or_eq_true, Bool.and_eq_true, decide_eq_true_eq] at hk
    simp only [isWsChar, Bool.or_eq_false_iff, beq_eq_false_iff_ne]
    omega
  · have : c = '_' := beq_iff_eq.mp hu
    subst this
    decide

theorem isKeyOrU_lowerChar_fix {c : Char} (h : isKeyOrU c = true) :
    lowerChar c = c := by
  rcases Bool.or_eq_true_iff.mp h with hk | hu
  · simp only [isKeyChar, Bool.or_eq_true, Bool.and_eq_true, decide_eq_true_eq] at hk
    exact lowerChar_eq_self (by omega)
  · have : c = '_' := beq_iff_eq.mp hu
    subst this
    decide

theorem isKeyOrU_of_eq_underscore {c : Char} (h : (c == '_') = true) :
    isKeyOrU c = true := by
  simp [isKeyOrU, h]

/-! ## Lemmas about `dropWhile`, `dropTrailing` and `trimEnds` -/

theorem head_dropWhile_false {p : Char → Bool} {l r : List Char} {c : Char}
    (h : l.dropWhile p = c :: r) : p c = false := by
  have := List.head?_dropWhile_not p l
  rw [h] at this
  exact this

theorem dropTrailing_isPrefix (p : Char → Bool) (l : List Char) :
    ∃ t, l = dropTrailing p l ++ t := by
  obtain ⟨t, ht⟩ := List.dropWhile_suffix (l := l.reverse) p
  refine ⟨t.reverse, ?_⟩
  calc l = l.reverse.reverse := (l.reverse_reverse).symm
    _ = (t ++ l.reverse.dropWhile p).reverse := by rw [ht]
    _ = (l.reverse.dropWhile p).reverse ++ t.reverse := by rw [List.reverse_append]
    _ = dropTrailing p l ++ t.reverse := rfl

theorem mem_dropTrailing {p : Char → Bool} {l : List Char} {c : Char}
    (h : c ∈ dropTrailing p l) : c ∈ l := by
  obtain ⟨t, ht⟩ := dropTrailing_isPrefix p l
  rw [ht]
  exact List.mem_append_left _ h

theorem mem_trimEnds {p : Char → Bool} {l : List Char} {c : Char}
    (h : c ∈ trimEnds p l) : c ∈ l := by
  have h1 : c ∈ l.dropWhile p := mem_dropTrailing h
  exact (List.dropWhile_suffix p).subset h1

theorem head_trimEnds_false {p : Char → Bool} {l r : List Char} {c : Char}
    (h : trimEnds p l = c :: r) : p c = false := by
  obtain ⟨t, ht⟩ := dropTrailing_isPrefix p (l.dropWhile p)
  rw [show dropTrailing p (l.dropWhile p) = trimEnds p l from rfl, h] at ht
  exact head_dropWhile_false ht

theorem getLast_dropTrailing_false {p : Char → Bool} {l : List Char} {c : Char}
    (h : (dropTrailing p l).getLast? = some c) : p c = false := by
  rw [← List.head?_reverse, dropTrailing, List.reverse_reverse] at h
  cases hd : l.reverse.dropWhile p with
  | nil => rw [hd] at h; cases h
  | cons a r =>
    rw [hd] at h
    have ha : a = c := by simpa using h
    subst ha
    exact head_dropWhile_false hd

theorem getLast_trimEnds_false {p : Char → Bool} {l : List Char} {c : Char}
    (h : (trimEnds p l).getLast? = some c) : p c = false :=
  getLast_dropTrailing_false h

theorem dropWhile_eq_self_of_head {p : Char → Bool} {l : List Char}
    (h : ∀ c r, l = c :: r → p c = false) : l.dropWhile p = l := by
  cases l with
  | nil => rfl
  | cons c r =>
    rw [List.dropWhile_cons, if_neg]
    simp [h c r rfl]

theorem dropTrailing_eq_self_of_getLast {p : Char → Bool} {l : List Char}
    (h : ∀ c, l.getLast? = some c → p c = false) : dropTrailing p l = l := by
  rw [dropTrailing, dropWhile_eq_self_of_head, List.reverse_reverse]
  intro c r hcr
  apply h
  rw [← List.head?_reverse, hcr]
  rfl

theorem trimEnds_eq_self {p : Char → Bool} {l : List Char}
    (hh : ∀ c r, l = c :: r → p c = false)
    (hl : ∀ c, l.getLast? = some c → p c = false) : trimEnds p l = l := by
  rw [trimEnds, dropWhile_eq_self_of_head hh, dropTrailing_eq_self_of_getLast hl]

/-! ## Lemmas about `squashRuns` and `noAdjU` -/

theorem noAdjU_cons_iff (a : Char) (l : List Char) :
    noAdjU (a :: l) = true ↔
      ((∀ d r, l = d :: r → (a == '_' && d == '_') = false) ∧ noAdjU l = true) := by
  cases l with
  | nil => simp [noAdjU]
  | cons d r =>
    simp only [noAdjU, Bool.and_eq_true, Bool.not_eq_true']
    constructor
    · rintro ⟨h1, h2⟩
      exact ⟨fun d' r' h => by injection h with hd hr; subst hd; exact h1, h2⟩
    · rintro ⟨h1, h2⟩
      exact ⟨h1 d r rfl, h2⟩

theorem noAdjU_tail {a : Char} {l : List Char} (h : noAdjU (a :: l) = true) :
    noAdjU l = true := ((noAdjU_cons_iff a l).mp h).2

theorem noAdjU_append_right {t l : List Char} (h : noAdjU (t ++ l) = true) :
    noAdjU l = true := by
  induction t with
  | nil => exact h
  | cons a t ih => exact ih (noAdjU_tail h)

theorem noAdjU_append_left {l t : List Char} (h : noAdjU (l ++ t) = true) :
    noAdjU l = true := by
  induction l with
  | nil => rfl
  | cons a l ih =>
    rw [List.cons_append] at h
    obtain ⟨h1, h2⟩ := (noAdjU_cons_iff a (l ++ t)).mp h
    refine (noAdjU_cons_iff a l).mpr ⟨?_, ih h2⟩
    intro d r hdr
    exact h1 d (r ++ t) (by rw [hdr, List.cons_append])

theorem noAdjU_dropWhile {p : Char → Bool} {l : List Char}
    (h : noAdjU l = true) : noAdjU (l.dropWhile p) = true := by
  obtain ⟨t, ht⟩ := List.dropWhile_suffix (l := l) p
  exact noAdjU_append_right (ht ▸ h)

theorem noAdjU_trimEnds {p : Char → Bool} {l : List Char}
    (h : noAdjU l = true) : noAdjU (trimEnds p l) = true := by
  obtain ⟨t, ht⟩ := dropTrailing_isPrefix p (l.dropWhile p)
  have h1 : noAdjU (l.dropWhile p) = true := noAdjU_dropWhile h
  rw [ht] at h1
  exact noAdjU_append_left h1

theorem mem_squashRuns {b : Bool} {l : List Char} {c : Char}
    (h : c ∈ squashRuns b l) : isKeyOrU c = true := by
  induction l generalizing b with
  | nil => cases h
  | cons a t ih =>
    by_cases hk : isKeyChar a = true
    · rw [squashRuns, if_pos hk] at h
      rcases List.mem_cons.mp h with hc | hc
      · subst hc; simp [isKeyOrU, hk]
      · exact ih hc
    · rw [squashRuns, if_neg hk] at h
      cases b with
      | true => exact ih h
      | false =>
        simp only [Bool.false_eq_true, if_false] at h
        rcases List.mem_cons.mp h with hc | hc
        · subst hc; decide
        · exact ih hc

theorem head_squashRuns_true {l : List Char} {c : Char} {r : List Char}
    (h : squashRuns true l = c :: r) : isKeyChar c = true := by
  induction l generalizing c r with
  | nil => cases h
  | cons a t ih =>
    by_cases hk : isKeyChar a = true
    · rw [squashRuns, if_pos hk] at h
      injection h with h1 _
      subst h1
      exact hk
    · rw [squashRuns, if_neg hk, if_pos rfl] at h
      exact ih h

theorem noAdjU_squashRuns (l : List Char) (b : Bool) :
    noAdjU (squashRuns b l) = true := by
  induction l generalizing b with
  | nil => rfl
  | cons a t ih =>
    by_cases hk : isKeyChar a = true
    · rw [squashRuns, if_pos hk]
      refine (noAdjU_cons_iff a _).mpr ⟨?_, ih false⟩
      intro d r _
      rw [isKeyChar_not_underscore hk]
      rfl
    · rw [squashRuns, if_neg hk]
      cases b with
      | true => exact ih true
      | false =>
        simp only [Bool.false_eq_true, if_false]
        refine (noAdjU_cons_iff '_' _).mpr ⟨?_, ih true⟩
        intro d r hdr
        rw [isKeyChar_not_underscore (head_squashRuns_true hdr)]
        simp

theorem squashRuns_true_eq_false_of_key {a : Char} {t : List Char}
    (hk : isKeyChar a = true) :
    squashRuns true (a :: t) = squashRuns false (a :: t) := by
  rw [squashRuns, squashRuns, if_pos hk, if_pos hk]

theorem squashRuns_false_fix {l : List Char}
    (hmem : ∀ c ∈ l, isKeyOrU c = true) (hadj : noAdjU l = true) :
    squashRuns false l = l := by
  induction l with
  | nil => rfl
  | cons a t ih =>
    by_cases hk : isKeyChar a = true
    · rw [squashRuns, if_pos hk]
      rw [ih (fun c hc => hmem c (List.mem_cons_of_mem a hc)) (noAdjU_tail hadj)]
    · have ha : a = '_' := by
        have := hmem a (List.mem_cons_self a t)
        rcases Bool.or_eq_true_iff.mp this with h1 | h1
        · exact absurd h1 hk
        · exact beq_iff_eq.mp h1
      subst ha
      rw [squashRuns, if_neg hk]
      simp only [Bool.false_eq_true, if_false]
      cases t with
      | nil => rfl
      | cons d r =>
        have hd : isKeyChar d = true := by
          obtain ⟨h1, _⟩ := (noAdjU_cons_iff '_' (d :: r)).mp hadj
          have hne : (d == '_') = false := by
            have := h1 d r rfl
            simpa using this
          have := hmem d (List.mem_cons_of_mem _ (List.mem_cons_self d r))
          rcases Bool.or_eq_true_iff.mp this with h2 | h2
          · exact h2
          · rw [h2] at hne; cases hne
        rw [squashRuns_true_eq_false_of_key hd]
        rw [ih (fun c hc => hmem c (List.mem_cons_of_mem _ hc)) (noAdjU_tail hadj)]

/-! ## Fixed-point lemmas for the normalizers -/

theorem normalizeKey_data (s : String) :
    (normalizeKey s).data =
      trimEnds (fun c => c == '_')
        (squashRuns false ((trimEnds isWsChar s.data).map lowerChar)) := rfl

theorem mem_normalizeKey {s : String} {c : Char}
    (h : c ∈ (normalizeKey s).data) : isKeyOrU c = true := by
  rw [normalizeKey_data] at h
  exact mem_squashRuns (mem_trimEnds h)

theorem noAdjU_normalizeKey (s : String) : noAdjU (normalizeKey s).data = true := by
  rw [normalizeKey_data]
  exact noAdjU_trimEnds (noAdjU_squashRuns _ _)

theorem mem_of_getLast_some {l : List Char} {c : Char}
    (h : l.getLast? = some c) : c ∈ l := by
  rw [← List.head?_reverse] at h
  have hm : c ∈ l.reverse := by
    cases hr : l.reverse with
    | nil => rw [hr] at h; cases h
    | cons a t =>
      rw [hr] at h
      have ha : a = c := by simpa using h
      subst ha
      exact List.mem_cons_self a t
  simpa using hm

theorem head_normalizeKey {s : String} {c : Char} {r : List Char}
    (h : (normalizeKey s).data = c :: r) : (c == '_') = false := by
  rw [normalizeKey_data] at h
  simpa using head_trimEnds_false (p := fun d => d == '_') h

theorem getLast_normalizeKey {s : String} {c : Char}
    (h : (normalizeKey s).data.getLast? = some c) : (c == '_') = false := by
  rw [normalizeKey_data] at h
  simpa using getLast_trimEnds_false (p := fun d => d == '_') h

theorem normalizeKey_idem (s : String) :
    normalizeKey (normalizeKey s) = normalizeKey s := by
  apply String.ext
  have hmem : ∀ c ∈ (normalizeKey s).data, isKeyOrU c = true :=
    fun c hc => mem_normalizeKey hc
  have stepA : trimEnds isWsChar (normalizeKey s).data = (normalizeKey s).data := by
    apply trimEnds_eq_self
    · intro c r hcr
      exact isKeyOrU_not_ws (hmem c (hcr ▸ List.mem_cons_self c r))
    · intro c hc
      exact isKeyOrU_not_ws (hmem c (mem_of_getLast_some hc))
  have stepB : ((normalizeKey s).data).map lowerChar = (normalizeKey s).data := by
    rw [List.map_congr_left (fun c hc => isKeyOrU_lowerChar_fix (hmem c hc) :
      ∀ c ∈ (normalizeKey s).data, lowerChar c = id c)]
    exact List.map_id _
  have stepC : squashRuns false (normalizeKey s).data = (normalizeKey s).data :=
    squashRuns_false_fix hmem (noAdjU_normalizeKey s)
  have stepD : trimEnds (fun c => c == '_') (normalizeKey s).data =
      (normalizeKey s).data := by
    apply trimEnds_eq_self
    · intro c r hcr
      exact head_normalizeKey hcr
    · intro c hc
      exact getLast_normalizeKey hc
  rw [normalizeKey_data (normalizeKey s), stepA, stepB, stepC, stepD]

theorem normalizeValue_data (s : String) :
    (normalizeValue s).data = (trimEnds isWsChar s.data).map lowerChar := rfl

theorem normalizeValue_idem (s : String) :
    normalizeValue (normalizeValue s) = normalizeValue s := by
  apply String.ext
  have stepA : trimEnds isWsChar (normalizeValue s).data = (normalizeValue s).data := by
    apply trimEnds_eq_self
    · intro c r hcr
      rw [normalizeValue_data] at hcr
      cases hw : trimEnds isWsChar s.data with
      | nil => rw [hw] at hcr; cases hcr
      | cons c0 r0 =>
        rw [hw] at hcr
        have hc0 : c = lowerChar c0 := by
          simpa using congrArg List.head? hcr.symm
        rw [hc0, isWsChar_lowerChar]
        exact head_trimEnds_false hw
    · intro c hc
      rw [normalizeValue_data] at hc
      have hmapLast : ((trimEnds isWsChar s.data).map lowerChar).getLast? =
          ((trimEnds isWsChar s.data).getLast?).map lowerChar := by
        rw [← List.head?_reverse, ← List.map_reverse, ← List.head?_reverse]
        cases (trimEnds isWsChar s.data).reverse with
        | nil => rfl
        | cons a t => rfl
      rw [hmapLast] at hc
      cases hw : (trimEnds isWsChar s.data).getLast? with
      | none => rw [hw] at hc; cases hc
      | some c0 =>
        rw [hw] at hc
        have hc0 : c = lowerChar c0 := by simpa using hc.symm
        rw [hc0, isWsChar_lowerChar]
        exact getLast_trimEnds_false hw
  have stepB : ((normalizeValue s).data).map lowerChar = (normalizeValue s).data := by
    rw [normalizeValue_data, List.map_map]
    exact List.map_congr_left (fun c _ => lowerChar_idem c)
  rw [normalizeValue_data (normalizeValue s), stepA, stepB]

theorem clampConfidence_idem (c : Option ℚ) :
    clampConfidence (clampConfidence c) = clampConfidence c := by
  cases c with
  | none => rfl
  | some q =>
    rw [clampConfidence]
    split_ifs with h1 h2
    · rw [clampConfidence]
      norm_num
    · rw [clampConfidence]
      norm_num
    · rw [clampConfidence, if_neg h1, if_neg h2]

/-! ## Idempotence of tag-list normalization -/

theorem normalizeRepositoryTagsAux_props (l : List TagPayload) (seen : List String) :
    (∀ t ∈ normalizeRepositoryTagsAux seen l, TagNormalized t) ∧
      ((normalizeRepositoryTagsAux seen l).map sigOf).Nodup ∧
      (∀ s ∈ (normalizeRepositoryTagsAux seen l).map sigOf, s ∉ seen) := by
  induction l generalizing seen with
  | nil =>
    exact ⟨fun t ht => absurd ht (List.not_mem_nil t), List.nodup_nil,
      fun s hs => absurd hs (List.not_mem_nil s)⟩
  | cons tag rest ih =>
    rw [normalizeRepositoryTagsAux]
    by_cases hempty : normalizeKey tag.key = "" ∨ normalizeValue tag.value = ""
    · rw [if_pos hempty]
      exact ih seen
    · rw [if_neg hempty]
      by_cases hseen : tagSignature (normalizeKey tag.key) (normalizeValue tag.value) ∈ seen
      · rw [if_pos hseen]
        exact ih seen
      · rw [if_neg hseen]
        push_neg at hempty
        obtain ⟨ihprops, ihnodup, ihfresh⟩ :=
          ih (tagSignature (normalizeKey tag.key) (normalizeValue tag.value) :: seen)
        refine ⟨?_, ?_, ?_⟩
        · intro t ht
          rcases List.mem_cons.mp ht with hh | hh
          · subst hh
            exact ⟨normalizeKey_idem tag.key, normalizeValue_idem tag.value,
              hempty.1, hempty.2, clampConfidence_idem tag.confidence⟩
          · exact ihprops t hh
        · rw [List.map_cons, List.nodup_cons]
          constructor
          · intro hmem
            exact ihfresh _ hmem (List.mem_cons_self _ _)
          · exact ihnodup
        · intro s hs
          rw [List.map_cons] at hs
          rcases List.mem_cons.mp hs with hh | hh
          · subst hh
            exact hseen
          · intro habs
            exact ihfresh s hh (List.mem_cons_of_mem _ habs)

theorem normalizeRepositoryTagsAux_replay (l : List TagPayload) (seen : List String)
    (hprops : ∀ t ∈ l, TagNormalized t) (hnodup : (l.map sigOf).Nodup)
    (hfresh : ∀ s ∈ l.map sigOf, s ∉ seen) :
    normalizeRepositoryTagsAux seen l = l := by
  induction l generalizing seen with
  | nil => rfl
  | cons tag rest ih =>
    obtain ⟨hkey, hvalue, hkne, hvne, hconf⟩ := hprops tag (List.mem_cons_self tag rest)
    rw [normalizeRepositoryTagsAux]
    rw [if_neg (by rw [hkey, hvalue]; exact not_or_intro hkne hvne)]
    have hsig : tagSignature (normalizeKey tag.key) (normalizeValue tag.value) = sigOf tag := by
      rw [hkey, hvalue]; rfl
    rw [if_neg (by
      rw [hsig]
      exact hfresh (sigOf tag) (List.mem_cons_self _ _))]
    have hhead : (⟨normalizeKey tag.key, normalizeValue tag.value,
        clampConfidence tag.confidence⟩ : TagPayload) = tag := by
      rw [hkey, hvalue, hconf]
    rw [hhead, hsig]
    congr 1
    apply ih
    · exact fun t ht => hprops t (List.mem_cons_of_mem tag ht)
    · exact (List.nodup_cons.mp (by simpa using hnodup)).2
    · intro s hs habs
      rcases List.mem_cons.mp habs with hh | hh
      · subst hh
        exact (List.nodup_cons.mp (by simpa using hnodup)).1 hs
      · exact hfresh s (List.mem_cons_of_mem _ hs) hh

theorem normalizeRepositoryTags_idem (tags : List TagPayload) :
    normalizeRepositoryTags (normalizeRepositoryTags tags) =
      normalizeRepositoryTags tags := by
  obtain ⟨hprops, hnodup, _⟩ := normalizeRepositoryTagsAux_props tags []
  exact normalizeRepositoryTagsAux_replay _ [] hprops hnodup (by simp)

theorem normalizeFileTags_idem (fileTags : List FileTagPayload) :
    normalizeFileTags (normalizeFileTags fileTags) = normalizeFileTags fileTags := by
  rw [normalizeFileTags, normalizeFileTags]
  have hmap : ∀ file ∈ (fileTags.map (fun file =>
      (⟨file.path, normalizeRepositoryTags file.tags⟩ : FileTagPayload))).filter
        (fun file => !file.tags.isEmpty),
      (⟨file.path, normalizeRepositoryTags file.tags⟩ : FileTagPayload) = file := by
    intro file hfile
    have hmem := List.mem_of_mem_filter hfile
    obtain ⟨orig, _, horig⟩ := List.mem_map.mp hmem
    have htags : normalizeRepositoryTags file.tags = file.tags := by
      rw [← horig]
      exact normalizeRepositoryTags_idem orig.tags
    rw [htags]
  rw [List.map_congr_left hmap]
  rw [show ∀ l : List FileTagPayload, l.map (fun a => a) = l from
    fun l => List.map_id' l]
  exact List.filter_eq_self.mpr (fun file hfile => (List.mem_filter.mp hfile).2)

end Tagging

namespace Tagging

/-! ## Claim C5 -/

/-- C5: normalization is idempotent — for every list of repository tag
payloads `normalizeRepositoryTags (normalizeRepositoryTags x) =
normalizeRepositoryTags x`, and for every list of file tag payloads
`normalizeFileTags (normalizeFileTags y) = normalizeFileTags y`. -/
theorem normalize_idempotent :
    (∀ x : List TagPayload,
      normalizeRepositoryTags (normalizeRepositoryTags x) = normalizeRepositoryTags x) ∧
    (∀ y : List FileTagPayload,
      normalizeFileTags (normalizeFileTags y) = normalizeFileTags y) :=
  ⟨normalizeRepositoryTags_idem, normalizeFileTags_idem⟩

/-! ## Claim C4 -/

/-- C4 counterexample: a metadata tag whose `source` is the empty string is
kept by the code (JavaScript `!tag.source` is true for `""`), while the
claim filter, which keeps only absent or `"tagging-service"` sources,
drops it.  At that input the two filters produce different existing-tag
lists. -/
theorem selectTaggingServiceTags_empty_source_counterexample :
    selectTaggingServiceTags [⟨"k", "v", some ""⟩] = [⟨"k", "v", none⟩] ∧
    selectTaggingServiceTagsClaim [⟨"k", "v", some ""⟩] = [] := by
  constructor <;> decide

/-- C4 (amended): `diffRepositoryTags` applies exactly the new list, its
removals are, setwise by `(key, value)`, a subset of existing minus new,
and the existing list the worker passes in is the metadata tag list
filtered to tags whose source is absent, empty, or equal to
`"tagging-service"` and then normalized. -/
theorem diffRepositoryTags_sound :
    (∀ newTags existingTags,
      (diffRepositoryTags newTags existingTags).apply = newTags) ∧
    (∀ newTags existingTags kv, kv ∈ (diffRepositoryTags newTags existingTags).remove →
      (∃ t ∈ existingTags, t.key = kv.key ∧ t.value = kv.value) ∧
      ¬∃ t ∈ newTags, t.key = kv.key ∧ t.value = kv.value) ∧
    (∀ tags, selectTaggingServiceTags tags =
      normalizeRepositoryTags ((tags.filter (fun tag =>
        decide (tag.source = none ∨ tag.source = some "" ∨ tag.source = some SOURCE))).map
        (fun tag => ⟨tag.key, tag.value, none⟩))) := by
  refine ⟨fun newTags existingTags => rfl, ?_, ?_⟩
  · intro newTags existingTags kv hkv
    rw [diffRepositoryTags] at hkv
    simp only [List.mem_map] at hkv
    obtain ⟨t, htf, hteq⟩ := hkv
    rw [List.mem_filter] at htf
    obtain ⟨htmem, htsig⟩ := htf
    constructor
    · exact ⟨t, htmem, by rw [← hteq], by rw [← hteq]⟩
    · rintro ⟨u, humem, huk, huv⟩
      have hsig : tagSignature u.key u.value = tagSignature t.key t.value := by
        rw [huk, huv, ← hteq]
      have hin : (newTags.map (fun tag => tagSignature tag.key tag.value)).contains
          (tagSignature t.key t.value) = true := by
        rw [List.contains_iff_exists_mem_beq]
        exact ⟨tagSignature t.key t.value,
          List.mem_map.mpr ⟨u, humem, hsig⟩, by simp⟩
      rw [hin] at htsig
      cases htsig
  · intro tags
    rw [selectTaggingServiceTags]
    congr 1
    congr 1
    apply List.filter_congr
    intro tag _
    cases hs : tag.source with
    | none => simp [isFalsyStr]
    | some x =>
      by_cases hx : x = ""
      · subst hx
        simp [isFalsyStr]
      · by_cases hxs : x = SOURCE <;> simp [isFalsyStr, hx, hxs]

/-- C4 witness: the amended statement instantiated at concrete lists, so
that a removal entry is actually produced and checked. -/
theorem diffRepositoryTags_sound_witness :
    (∃ t ∈ [(⟨"language", "javascript", none⟩ : TagPayload)],
        t.key = "language" ∧ t.value = "javascript") ∧
    ¬∃ t ∈ [(⟨"language", "typescript", none⟩ : TagPayload)],
        t.key = "language" ∧ t.value = "javascript" :=
  diffRepositoryTags_sound.2.1 [⟨"language", "typescript", none⟩]
    [⟨"language", "javascript", none⟩] ⟨"language", "javascript"⟩ (by decide)

/-! ## Claim C1 -/

/-- C1 counterexample: at `now = 5000` with the twelve-hour window,
repository `r3` has a successful run of age 1000 ms inside the window, so
the claim (SOME successful run within the window) is true, but the code
returns false because the run with the maximal `completed_at` is
future-dated (age −1000). -/
theorem hasRecentSuccessfulRun_shadowed_counterexample :
    hasRecentSuccessfulRun shadowedDb 5000 "r3" RECENCY_WINDOW_MS = false ∧
    existsRecentSuccessfulRun shadowedDb 5000 "r3" RECENCY_WINDOW_MS = true := by
  constructor <;> decide

/-- C1 (amended): `hasRecentSuccessfulRun(R, W)` is true iff the LATEST
successful run of `R` — the one `getLatestSuccessfulRun` returns, with the
maximal `completedAt` — has a non-null `completedAt` whose age satisfies
`0 ≤ now − completedAt ≤ W`; in particular, for that latest run an age
exactly `W ≥ 0` yields true, an age above `W` yields false, and a future
`completedAt` yields false. -/
theorem hasRecentSuccessfulRun_latest_characterization :
    (∀ db now repositoryId maxAgeMs,
      hasRecentSuccessfulRun db now repositoryId maxAgeMs = true ↔
        ∃ latest completed, getLatestSuccessfulRun db repositoryId = some latest ∧
          latest.completed_at = some completed ∧
          0 ≤ now - completed ∧ now - completed ≤ maxAgeMs) ∧
    (∀ db now repositoryId maxAgeMs latest completed,
      getLatestSuccessfulRun db repositoryId = some latest →
      latest.completed_at = some completed →
      0 ≤ maxAgeMs →
      (now - completed = maxAgeMs →
        hasRecentSuccessfulRun db now repositoryId maxAgeMs = true) ∧
      (maxAgeMs < now - completed →
        hasRecentSuccessfulRun db now repositoryId maxAgeMs = false) ∧
      (now - completed < 0 →
        hasRecentSuccessfulRun db now repositoryId maxAgeMs = false)) := by
  constructor
  · intro db now repositoryId maxAgeMs
    cases hl : getLatestSuccessfulRun db repositoryId with
    | none => simp [hasRecentSuccessfulRun, hl]
    | some latest =>
      cases hc : latest.completed_at with
      | none => simp [hasRecentSuccessfulRun, hl, hc]
      | some completed => simp [hasRecentSuccessfulRun, hl, hc]
  · intro db now repositoryId maxAgeMs latest completed hl hc hW
    refine ⟨?_, ?_, ?_⟩
    · intro hage
      simp only [hasRecentSuccessfulRun, hl, hc, decide_eq_true_eq]
      omega
    · intro hage
      simp only [hasRecentSuccessfulRun, hl, hc, decide_eq_false_iff_not]
      omega
    · intro hage
      simp only [hasRecentSuccessfulRun, hl, hc, decide_eq_false_iff_not]
      omega

/-- C1 witness: the latest successful run of `r3` completed at 6000; at
`now = 43206000` its age is exactly the twelve-hour window, and the
predicate returns true. -/
theorem hasRecentSuccessfulRun_latest_witness :
    hasRecentSuccessfulRun shadowedDb 43206000 "r3" RECENCY_WINDOW_MS = true :=
  (hasRecentSuccessfulRun_latest_characterization.2 shadowedDb 43206000 "r3"
    RECENCY_WINDOW_MS ⟨2, 1, .succeeded, 0, some 6000, none, none, none, none⟩ 6000
    (by decide) rfl (by decide)).1 (by decide)

end Tagging

namespace Tagging

/-! ## Claim C10 -/

theorem pairwise_repository_id_inj {l : List JobRow}
    (hp : l.Pairwise (fun a b => a.repository_id ≠ b.repository_id))
    {a b : JobRow} (ha : a ∈ l) (hb : b ∈ l)
    (heq : a.repository_id = b.repository_id) : a = b := by
  induction l with
  | nil => cases ha
  | cons x t ih =>
    rw [List.pairwise_cons] at hp
    rcases List.mem_cons.mp ha with hax | hat
    · rcases List.mem_cons.mp hb with hbx | hbt
      · rw [hax, hbx]
      · exact absurd (hax ▸ heq) (hp.1 b hbt)
    · rcases List.mem_cons.mp hb with hbx | hbt
      · exact absurd (hbx ▸ heq.symm) (hp.1 a hat)
      · exact ih hp.2 hat hbt

/-- C10: when a row for the repository already exists, `upsertJob` rewrites
only that row's `updated_at`: the table becomes the pointwise touch of the
matching row, every row with the repository id keeps its `status`, `runs`,
`last_run_at`, `created_at` and `id` (so a `failed` or `succeeded` status
is not reset to `queued`), and all other rows are left in place. -/
theorem upsertJob_frame (db : List JobRow) (r : String) (now : Int) (row : JobRow)
    (hmem : row ∈ db) (hrid : row.repository_id = r)
    (huniq : db.Pairwise (fun a b => a.repository_id ≠ b.repository_id)) :
    upsertJob db r now = db.map (fun q =>
      if q.repository_id == r then { q with updated_at := now } else q) ∧
    (∀ row2 ∈ upsertJob db r now, row2.repository_id = r →
      row2.status = row.status ∧ row2.runs = row.runs ∧
      row2.last_run_at = row.last_run_at ∧ row2.created_at = row.created_at ∧
      row2.id = row.id) ∧
    (∀ other ∈ db, other.repository_id ≠ r → other ∈ upsertJob db r now) := by
  have hany : db.any (fun q => q.repository_id == r) = true :=
    List.any_eq_true.mpr ⟨row, hmem, beq_iff_eq.mpr hrid⟩
  have hup : upsertJob db r now = db.map (fun q =>
      if q.repository_id == r then { q with updated_at := now } else q) := by
    rw [upsertJob, if_pos hany]
  refine ⟨hup, ?_, ?_⟩
  · intro row2 hrow2 hrow2id
    rw [hup] at hrow2
    obtain ⟨q, hq, hfq⟩ := List.mem_map.mp hrow2
    by_cases hqr : q.repository_id == r
    · rw [if_pos hqr] at hfq
      have hqrow : q = row :=
        pairwise_repository_id_inj huniq hq hmem (by rw [beq_iff_eq.mp hqr, hrid])
      rw [← hfq, hqrow]
      exact ⟨rfl, rfl, rfl, rfl, rfl⟩
    · rw [if_neg hqr] at hfq
      rw [hfq] at hqr
      exact absurd (beq_iff_eq.mpr hrow2id) hqr
  · intro other hother hotherid
    rw [hup]
    have : (if other.repository_id == r then { other with updated_at := now }
        else other) = other := by
      rw [if_neg (by simpa using hotherid)]
    exact this ▸ List.mem_map_of_mem _ hother

/-- C10 witness: touching an existing failed job only bumps `updated_at`;
the whole-table shape at a concrete one-row store. -/
theorem upsertJob_frame_witness :
    upsertJob [⟨1, "r9", JobStatus.failed, some 7, 3, 1, 2⟩] "r9" 99 =
      [⟨1, "r9", JobStatus.failed, some 7, 3, 1, 2⟩].map (fun q =>
        if q.repository_id == "r9" then { q with updated_at := 99 } else q) :=
  (upsertJob_frame [⟨1, "r9", JobStatus.failed, some 7, 3, 1, 2⟩] "r9" 99
    ⟨1, "r9", JobStatus.failed, some 7, 3, 1, 2⟩ (by decide) rfl
    (by simp)).1

/-! ## Claim C7 -/

/-- C7: classification of the model-service call — a network-level or
HTTP-error failure of `httpRequest` raises a `TransientJobError`; a
successful HTTP response whose first choice has no (or empty) message
content, whose content fails JSON parsing, or whose parsed JSON lacks a
`repository_tags` array raises a `PermanentJobError`; otherwise the parsed
response is returned with the usage token counts. -/
theorem generateTags_classification :
    (∀ (parseJson : String → Option Json) (m : String),
      generateTags parseJson (.error m) =
        .error (.transient "AI connector request failed")) ∧
    (∀ parseJson resp, isFalsyStr (choiceContent resp) = true →
      generateTags parseJson (.ok resp) =
        .error (.permanent "AI connector returned no content")) ∧
    (∀ parseJson resp text, choiceContent resp = some text → text ≠ "" →
      parseJson text = none →
      generateTags parseJson (.ok resp) =
        .error (.permanent "AI connector response was not valid JSON")) ∧
    (∀ parseJson resp text parsed, choiceContent resp = some text → text ≠ "" →
      parseJson text = some parsed →
      isJsonArray (getField parsed "repository_tags") = false →
      generateTags parseJson (.ok resp) =
        .error (.permanent "AI connector response missing repository_tags array")) ∧
    (∀ parseJson resp text parsed, choiceContent resp = some text → text ≠ "" →
      parseJson text = some parsed →
      isJsonArray (getField parsed "repository_tags") = true →
      generateTags parseJson (.ok resp) =
        .ok ⟨parsed, resp.usage.bind (fun u => u.prompt_tokens),
          resp.usage.bind (fun u => u.completion_tokens)⟩) := by
  have hfalse : ∀ resp text, choiceContent resp = some text → text ≠ "" →
      isFalsyStr (choiceContent resp) = false := by
    intro resp text h1 h2
    rw [h1]
    simpa [isFalsyStr] using beq_eq_false_iff_ne.mpr h2
  refine ⟨fun parseJson m => rfl, ?_, ?_, ?_, ?_⟩
  · intro parseJson resp h
    simp only [generateTags, h, if_pos]
  · intro parseJson resp text h1 h2 h3
    have hft : isFalsyStr (some text) = false := by
      simpa [isFalsyStr] using beq_eq_false_iff_ne.mpr h2
    simp only [generateTags, h1, hft, Bool.false_eq_true, if_false, h3]
  · intro parseJson resp text parsed h1 h2 h3 h4
    have hft : isFalsyStr (some text) = false := by
      simpa [isFalsyStr] using beq_eq_false_iff_ne.mpr h2
    simp only [generateTags, h1, hft, Bool.false_eq_true, if_false, h3, h4]
  · intro parseJson resp text parsed h1 h2 h3 h4
    have hft : isFalsyStr (some text) = false := by
      simpa [isFalsyStr] using beq_eq_false_iff_ne.mpr h2
    simp only [generateTags, h1, hft, Bool.false_eq_true, if_false, h3, h4, if_true]

/-- C7 witness: a rejected HTTP request is classified transient at a
concrete failure. -/
theorem generateTags_classification_witness :
    generateTags (fun _ => none) (.error "connect ECONNREFUSED") =
      .error (.transient "AI connector request failed") :=
  generateTags_classification.1 (fun _ => none) "connect ECONNREFUSED"

end Tagging

namespace Tagging

/-! ## Claims C8 and C9 -/

theorem process_error_trace (env : ProcessEnv) (jd : TaggingJobData) (e : JobError)
    (h : (process env jd).outcome = Except.error e) :
    (process env jd).trace = [AuditAction.startRun,
      .completeRun ⟨.failed, some e.message, promptComputed env, none, none,
        env.elapsedMs, rawReceived env⟩,
      .pubsub (.failed jd.repositoryId e.message jd.trigger e.isTransientError),
      .webhook (.failed jd.repositoryId e.message jd.trigger e.isTransientError)] := by
  obtain ⟨md, chk, fls, pr, ai, aro, afo, rec, el⟩ := env
  rcases md with m | metadata
  · simp only [process, failResult, promptComputed, rawReceived,
      Except.error.injEq] at h ⊢
    subst h
    rfl
  · cases hurl : isFalsyStr (metadata.repoUrl <|> metadata.repositoryUrl) with
    | true =>
      simp only [process, failResult, promptComputed, rawReceived, hurl,
        Except.error.injEq, if_true] at h ⊢
      subst h
      rfl
    | false =>
      rcases chk with ec | _
      · simp only [process, failResult, promptComputed, rawReceived, hurl,
          Bool.false_eq_true, if_false, Except.error.injEq] at h ⊢
        subst h
        rfl
      · rcases fls with ef | _
        · simp only [process, failResult, promptComputed, rawReceived, hurl,
            Bool.false_eq_true, if_false, Except.error.injEq] at h ⊢
          subst h
          rfl
        · rcases pr with ep | prompt
          · simp only [process, failResult, promptComputed, rawReceived, hurl,
              Bool.false_eq_true, if_false, Except.error.injEq] at h ⊢
            subst h
            rfl
          · rcases ai with ea | aiResult
            · simp only [process, failResult, promptComputed, rawReceived, hurl,
                Bool.false_eq_true, if_false, Except.error.injEq] at h ⊢
              subst h
              rfl
            · cases hre : (diffRepositoryTags
                  (normalizeRepositoryTags (aiResult.response.repository_tags.getD []))
                  (selectTaggingServiceTags (metadata.tags.getD []))).apply.isEmpty &&
                  (diffRepositoryTags
                    (normalizeRepositoryTags (aiResult.response.repository_tags.getD []))
                    (selectTaggingServiceTags (metadata.tags.getD []))).remove.isEmpty
                with
              | false =>
                rcases aro with er | _
                · simp only [process, failResult, promptComputed, rawReceived, hurl,
                    hre, Bool.false_eq_true, if_false, Except.error.injEq] at h ⊢
                  subst h
                  rfl
                · cases hfe : (diffFileTags (normalizeFileTags
                      (aiResult.response.file_tags.getD []))).apply.isEmpty with
                  | false =>
                    rcases afo with epath | _
                    · simp only [process, failResult, promptComputed, rawReceived,
                        hurl, hre, hfe, Bool.false_eq_true, if_false,
                        Except.error.injEq] at h ⊢
                      subst h
                      rfl
                    · rcases rec with em | _
                      · simp only [process, failResult, promptComputed, rawReceived,
                          hurl, hre, hfe, Bool.false_eq_true, if_false,
                          Except.error.injEq] at h ⊢
                        subst h
                        rfl
                      · simp only [process, failResult, hurl, hre, hfe,
                          Bool.false_eq_true, if_false] at h
                        cases h
                  | true =>
                    rcases rec with em | _
                    · simp only [process, failResult, promptComputed, rawReceived,
                        hurl, hre, hfe, Bool.false_eq_true, if_false, if_true,
                        Except.error.injEq] at h ⊢
                      subst h
                      rfl
                    · simp only [process, failResult, hurl, hre, hfe,
                        Bool.false_eq_true, if_false, if_true] at h
                      cases h
              | true =>
                cases hfe : (diffFileTags (normalizeFileTags
                    (aiResult.response.file_tags.getD []))).apply.isEmpty with
                | false =>
                  rcases afo with epath | _
                  · simp only [process, failResult, promptComputed, rawReceived,
                      hurl, hre, hfe, Bool.false_eq_true, if_false, if_true,
                      Except.error.injEq] at h ⊢
                    subst h
                    rfl
                  · rcases rec with em | _
                    · simp only [process, failResult, promptComputed, rawReceived,
                        hurl, hre, hfe, Bool.false_eq_true, if_false, if_true,
                        Except.error.injEq] at h ⊢
                      subst h
                      rfl
                    · simp only [process, failResult, hurl, hre, hfe,
                        Bool.false_eq_true, if_false, if_true] at h
                      cases h
                | true =>
                  rcases rec with em | _
                  · simp only [process, failResult, promptComputed, rawReceived,
                      hurl, hre, hfe, Bool.false_eq_true, if_false, if_true,
                      Except.error.injEq] at h ⊢
                    subst h
                    rfl
                  · simp only [process, failResult, hurl, hre, hfe,
                      Bool.false_eq_true, if_false, if_true] at h
                    cases h

end Tagging

namespace Tagging

/-- C8: whenever any pipeline stage fails, the processor seals the run via
`completeRun` with status `failed`, the error message, the measured
latency, the prompt if it was computed and the raw model response if the
model call had returned, and afterwards publishes `tagging.failed`
carrying the transient flag; in particular, metadata without a usable
`repoUrl` yields a failed run whose message contains `repoUrl` and a
`tagging.failed` event with `transient = false`. -/
theorem process_failure_seals_then_notifies :
    (∀ env jd e, (process env jd).outcome = Except.error e →
      (process env jd).trace = [AuditAction.startRun,
        .completeRun ⟨.failed, some e.message, promptComputed env, none, none,
          env.elapsedMs, rawReceived env⟩,
        .pubsub (.failed jd.repositoryId e.message jd.trigger e.isTransientError),
        .webhook (.failed jd.repositoryId e.message jd.trigger e.isTransientError)]) ∧
    (∀ env jd metadata, env.metadata = Except.ok metadata →
      isFalsyStr (metadata.repoUrl <|> metadata.repositoryUrl) = true →
      (process env jd).outcome =
        Except.error (.permanent "Repository metadata missing repoUrl") ∧
      (∃ pre post : String,
        "Repository metadata missing repoUrl" = pre ++ "repoUrl" ++ post) ∧
      AuditAction.pubsub (.failed jd.repositoryId
        "Repository metadata missing repoUrl" jd.trigger false) ∈
          (process env jd).trace) := by
  constructor
  · exact fun env jd e h => process_error_trace env jd e h
  · intro env jd metadata hmd hurl
    obtain ⟨md, chk, fls, pr, ai, aro, afo, rec, el⟩ := env
    simp only at hmd
    subst hmd
    refine ⟨?_, ⟨"Repository metadata missing ", "", by decide⟩, ?_⟩
    · simp only [process, failResult, hurl, if_true]
    · simp only [process, failResult, hurl, if_true]
      exact List.mem_cons_of_mem _ (List.mem_cons_of_mem _ (List.mem_cons_self _ _))

/-- C8 witness: a metadata response for `r4` without `repoUrl` at a
concrete environment. -/
theorem process_failure_seals_then_notifies_witness :
    (process ⟨Except.ok ⟨"r4", none, none, none, none, none, none, none⟩,
        .ok (), .ok (), .ok "p", .ok ⟨⟨some [], some []⟩, none, none⟩,
        .ok (), .ok (), .ok (), 17⟩ ⟨"r4", .event, none⟩).outcome =
      Except.error (.permanent "Repository metadata missing repoUrl") ∧
    (∃ pre post : String,
      "Repository metadata missing repoUrl" = pre ++ "repoUrl" ++ post) ∧
    AuditAction.pubsub (.failed "r4" "Repository metadata missing repoUrl"
      Trigger.event false) ∈
      (process ⟨Except.ok ⟨"r4", none, none, none, none, none, none, none⟩,
        .ok (), .ok (), .ok "p", .ok ⟨⟨some [], some []⟩, none, none⟩,
        .ok (), .ok (), .ok (), 17⟩ ⟨"r4", .event, none⟩).trace :=
  process_failure_seals_then_notifies.2
    ⟨Except.ok ⟨"r4", none, none, none, none, none, none, none⟩,
      .ok (), .ok (), .ok "p", .ok ⟨⟨some [], some []⟩, none, none⟩,
      .ok (), .ok (), .ok (), 17⟩ ⟨"r4", .event, none⟩
    ⟨"r4", none, none, none, none, none, none, none⟩ rfl rfl

/-- C9: an error that is neither `TransientJobError` nor
`PermanentJobError` (for example an audit-store failure) is not discarded
by the worker — the queue retries it like a transient failure — yet the
published `tagging.failed` event reports `transient = false`, because the
flag is true only for `TransientJobError` instances. -/
theorem worker_unclassified_error_retried_not_transient :
    ∀ env jd m, (process env jd).outcome = Except.error (.other m) →
      workerDiscardsJob (process env jd).outcome = false ∧
      AuditAction.pubsub (.failed jd.repositoryId m jd.trigger false) ∈
        (process env jd).trace := by
  intro env jd m h
  constructor
  · rw [h]
    rfl
  · rw [process_error_trace env jd (.other m) h]
    exact List.mem_cons_of_mem _ (List.mem_cons_of_mem _ (List.mem_cons_self _ _))

/-- C9 witness: a failing `recordTagAssignments` (plain database error) at
a concrete environment is retried but reported with `transient = false`. -/
theorem worker_unclassified_error_witness :
    workerDiscardsJob (process ⟨Except.ok ⟨"r7", none, some "http://x", none,
        none, none, none, none⟩, .ok (), .ok (), .ok "p",
        .ok ⟨⟨some [], some []⟩, none, none⟩, .ok (), .ok (),
        .error "SQLITE_BUSY", 3⟩ ⟨"r7", .scheduler, none⟩).outcome = false ∧
    AuditAction.pubsub (.failed "r7" "SQLITE_BUSY" Trigger.scheduler false) ∈
      (process ⟨Except.ok ⟨"r7", none, some "http://x", none,
        none, none, none, none⟩, .ok (), .ok (), .ok "p",
        .ok ⟨⟨some [], some []⟩, none, none⟩, .ok (), .ok (),
        .error "SQLITE_BUSY", 3⟩ ⟨"r7", .scheduler, none⟩).trace :=
  worker_unclassified_error_retried_not_transient
    ⟨Except.ok ⟨"r7", none, some "http://x", none, none, none, none, none⟩,
      .ok (), .ok (), .ok "p", .ok ⟨⟨some [], some []⟩, none, none⟩,
      .ok (), .ok (), .error "SQLITE_BUSY", 3⟩
    ⟨"r7", .scheduler, none⟩ "SQLITE_BUSY" rfl

end Tagging

namespace Tagging

/-! ## Claim C2 -/

/-- C2: for a message normalizing to `repository.updated` or
`repository.ingestion-event` with repository id `R`, admission enqueues a
tagging job (name `tag-repository`, trigger `event`, job id
`taggingJobId R`) iff the normalized ingest status equals `"ready"` and
`hasRecentSuccessfulRun(R, 12h)` is false; every normalized repository
event is forwarded to the registered listener, and other event names never
enqueue. -/
theorem admission_policy (db : AuditDb) (now : Int) (parsed : Json)
    (ne : NormalizedEvent) (R : String)
    (hne : normalizeEvent parsed = some ne) (hrid : ne.repositoryId = Json.str R) :
    (handleMessage db now (some parsed)).forwarded = some ne ∧
    ((ne.eventName = "repository.updated" ∨
        ne.eventName = "repository.ingestion-event") →
      (((handleMessage db now (some parsed)).enqueued ≠ none) ↔
        (isReadyStatus ne.ingestStatus = true ∧
          hasRecentSuccessfulRun db now R RECENCY_WINDOW_MS = false)) ∧
      (∀ req, (handleMessage db now (some parsed)).enqueued = some req →
        req = ⟨"tag-repository", ⟨R, .event, none⟩, taggingJobId R⟩)) ∧
    ((ne.eventName ≠ "repository.updated" ∧
        ne.eventName ≠ "repository.ingestion-event") →
      (handleMessage db now (some parsed)).enqueued = none) := by
  refine ⟨?_, ?_, ?_⟩
  · simp only [handleMessage, hne]
  · intro hname
    simp only [handleMessage, hne, if_pos hname, hrid, jsonAsStr]
    cases hready : isReadyStatus ne.ingestStatus with
    | false => simp
    | true =>
      cases hrec : hasRecentSuccessfulRun db now R RECENCY_WINDOW_MS with
      | true => simp
      | false =>
        simp only [if_true, Bool.true_eq_false, if_false]
        constructor
        · simp
        · intro req hreq
          exact (Option.some.injEq _ _ ▸ hreq).symm ▸ rfl
  · intro hname
    simp only [handleMessage, hne]
    rw [if_neg]
    rintro (h | h)
    · exact hname.1 h
    · exact hname.2 h

/-- C2 witness: the legacy scenario message for `r1` with ingest status
`ready` against an empty audit store is forwarded, and the enqueue
condition holds there. -/
theorem admission_policy_witness :
    (handleMessage emptyDb 0 (some legacyReadyMsg)).forwarded =
      some legacyReadyEvent ∧
    (((handleMessage emptyDb 0 (some legacyReadyMsg)).enqueued ≠ none) ↔
      (isReadyStatus legacyReadyEvent.ingestStatus = true ∧
        hasRecentSuccessfulRun emptyDb 0 "r1" RECENCY_WINDOW_MS = false)) :=
  ⟨(admission_policy emptyDb 0 legacyReadyMsg legacyReadyEvent "r1" (by rfl) rfl).1,
    ((admission_policy emptyDb 0 legacyReadyMsg legacyReadyEvent "r1"
      (by rfl) rfl).2.1 (Or.inl rfl)).1⟩

end Tagging


namespace Tagging

/-! ## Claim C6 -/

/-- C6 counterexample: for the legacy message (top-level string `event`),
the code takes the repository id from `payload.repository.id` and yields
`r1`, while the claimed resolution chain `event.data.repository.id`, then
`event.data.repositoryId`, then `event.data.event.repositoryId`, applied
to every message, resolves nothing: a string-valued `event` has no `data`
property.  The same holds for the ingest status. -/
theorem normalizeEvent_legacy_counterexample :
    (normalizeEvent legacyReadyMsg).map (fun ne => ne.repositoryId) =
      some (Json.str "r1") ∧
    claimResolveRepositoryId legacyReadyMsg = none ∧
    claimResolveIngestStatus legacyReadyMsg = none :=
  ⟨rfl, rfl, rfl⟩

/-- C6 (amended): the normalized event name is the top-level `event` field
when that field is a string and otherwise the string `event.type`; the
repository id and ingest status come from `payload.repository.{id,
ingestStatus}` when the top-level `event` is a string (legacy shape), and
otherwise (envelope shape) are each resolved independently through the
preference chain `event.data.repository.{id, ingestStatus}` (string-typed),
then `event.data.{repositoryId, ingestStatus}`, then
`event.data.event.{repositoryId, status}`, where a later source is
consulted only while the current value is undefined or the empty
string. -/
theorem normalizeEvent_resolution :
    ∀ parsed ne, normalizeEvent parsed = some ne →
      claimEventName parsed = some ne.eventName ∧
      (∀ s, getField parsed "event" = some (Json.str s) →
        some ne.repositoryId =
          ((getField parsed "payload").bind (fun p => getField p "repository")).bind
            (fun r => getField r "id") ∧
        ne.ingestStatus =
          ((getField parsed "payload").bind (fun p => getField p "repository")).bind
            (fun r => getField r "ingestStatus")) ∧
      (∀ ev, getField parsed "event" = some ev → jsonAsStr ev = none →
        some ne.repositoryId = ((envelopeResolvedIds ev).1).map Json.str ∧
        ne.ingestStatus = ((envelopeResolvedIds ev).2).map Json.str) := by
  intro parsed ne hne
  cases parsed with
  | null => exact Option.noConfusion hne
  | bool b => exact Option.noConfusion hne
  | num n => exact Option.noConfusion hne
  | str s => exact Option.noConfusion hne
  | arr l => exact Option.noConfusion hne
  | obj fields =>
    cases hev : getField (Json.obj fields) "event" with
    | none =>
      simp only [normalizeEvent, hev] at hne
      exact Option.noConfusion hne
    | some ev =>
      cases ev with
      | null =>
        simp only [normalizeEvent, hev] at hne
        exact Option.noConfusion hne
      | bool b =>
        cases b with
        | false =>
          simp only [normalizeEvent, hev] at hne
          exact Option.noConfusion hne
        | true =>
          simp only [normalizeEvent, hev] at hne
          exact Option.noConfusion hne
      | num n =>
        simp only [normalizeEvent, hev, jsTruthy, isObjectType, Bool.and_false] at hne
        exact Option.noConfusion hne
      | arr elems =>
        simp only [normalizeEvent, hev] at hne
        exact Option.noConfusion hne
      | str s =>
        simp only [normalizeEvent, hev] at hne
        cases hstart : startsWithStr "repository." s with
        | false =>
          simp only [hstart] at hne
          exact Option.noConfusion hne
        | true =>
          simp only [hstart] at hne
          cases hrid : ((getField (Json.obj fields) "payload").bind
              (fun p => getField p "repository")).bind (fun r => getField r "id") with
          | none =>
            simp only [hrid] at hne
            exact Option.noConfusion hne
          | some ridv =>
            simp only [hrid] at hne
            cases htr : jsTruthy ridv with
            | false =>
              simp only [htr] at hne
              exact Option.noConfusion hne
            | true =>
              simp only [htr] at hne
              have hval := Option.some.inj hne
              subst hval
              refine ⟨?_, ?_, ?_⟩
              · simp only [claimEventName, hev]
              · intro s2 hs2
                exact ⟨rfl, rfl⟩
              · intro ev2 hev2 hstr
                have he : ev2 = Json.str s := (Option.some.inj hev2).symm
                subst he
                exact Option.noConfusion hstr
      | obj evfields =>
        have hcond : (jsTruthy (Json.obj fields) && isObjectType (Json.obj fields) &&
            jsTruthy (Json.obj evfields) && isObjectType (Json.obj evfields)) = true := rfl
        simp only [normalizeEvent, hev, hcond, eq_self_iff_true, if_true] at hne
        cases hdata : getField (Json.obj evfields) "data" with
        | none =>
          simp only [hdata] at hne
          cases hnm : getStrField (Json.obj evfields) "type" with
          | none =>
            simp only [hnm] at hne
            exact Option.noConfusion hne
          | some nm =>
            simp only [hnm] at hne
            cases hsw : startsWithStr "repository." nm <;> rw [hsw] at hne <;>
              exact Option.noConfusion hne
        | some data =>
          simp only [hdata] at hne
          cases hdt : (jsTruthy data && isObjectType data) with
          | false =>
            rw [hdt] at hne
            simp only [Bool.false_eq_true, if_false] at hne
            cases hnm : getStrField (Json.obj evfields) "type" with
            | none =>
              simp only [hnm] at hne
              exact Option.noConfusion hne
            | some nm =>
              simp only [hnm] at hne
              cases hsw : startsWithStr "repository." nm <;> rw [hsw] at hne <;>
                exact Option.noConfusion hne
          | true =>
            rw [hdt] at hne
            simp only [eq_self_iff_true, if_true] at hne
            cases hnm : getStrField (Json.obj evfields) "type" with
            | none =>
              simp only [hnm] at hne
              exact Option.noConfusion hne
            | some nm =>
              simp only [hnm] at hne
              cases hsw : startsWithStr "repository." nm with
              | false =>
                rw [hsw] at hne
                exact Option.noConfusion hne
              | true =>
                rw [hsw] at hne
                cases hr : (resolveEnvelopeIds data).1 with
                | none =>
                  simp only [hr] at hne
                  exact Option.noConfusion hne
                | some r =>
                  simp only [hr, Option.map_some'] at hne
                  cases hrt : jsTruthy (Json.str r) with
                  | false =>
                    rw [hrt] at hne
                    exact Option.noConfusion hne
                  | true =>
                    rw [hrt] at hne
                    have hval := Option.some.inj hne
                    subst hval
                    refine ⟨?_, ?_, ?_⟩
                    · simp only [claimEventName, hev, hnm]
                    · intro s2 hs2
                      exact Json.noConfusion (Option.some.inj hs2)
                    · intro ev2 hev2 hstr
                      have he : ev2 = Json.obj evfields := (Option.some.inj hev2).symm
                      subst he
                      simp [envelopeResolvedIds, hdata, hdt, hr]

/-- C6 witness: the amended characterization instantiated at the legacy
scenario message — the claimed event-name rule holds there. -/
theorem normalizeEvent_resolution_witness :
    claimEventName legacyReadyMsg = some legacyReadyEvent.eventName :=
  (normalizeEvent_resolution legacyReadyMsg legacyReadyEvent (by rfl)).1

end Tagging

namespace Tagging

/-! ## Claim C3 -/

theorem sha1Digest_length (msg : List Nat) : (sha1Digest msg).length = 20 := by
  simp [sha1Digest, wordBytes]

theorem wordBytes_lt (w : Nat) : ∀ b ∈ wordBytes w, b < 256 := by
  intro b hb
  simp only [wordBytes, List.mem_cons, List.not_mem_nil, or_false] at hb
  rcases hb with h | h | h | h <;> subst h <;> exact Nat.mod_lt _ (by norm_num)

theorem sha1Digest_bytes_lt (msg : List Nat) : ∀ b ∈ sha1Digest msg, b < 256 := by
  intro b hb
  simp only [sha1Digest, List.mem_append] at hb
  rcases hb with (((h | h) | h) | h) | h <;> exact wordBytes_lt _ _ h

theorem hexChar_mem {n : Nat} (h : n < 16) :
    hexChar n ∈ ("0123456789abcdef".data) := by
  interval_cases n <;> decide

theorem bytesToHex_length (bs : List Nat) : (bytesToHex bs).length = 2 * bs.length := by
  show ((bs.map byteToHex).flatten).length = 2 * bs.length
  induction bs with
  | nil => rfl
  | cons b rest ih =>
    simp only [List.map_cons, List.flatten_cons, List.length_append, ih, byteToHex,
      List.length_cons, List.length_nil, List.length_map]
    omega

theorem mem_bytesToHex {bs : List Nat} (hlt : ∀ b ∈ bs, b < 256) :
    ∀ c ∈ (bytesToHex bs).data, c ∈ ("0123456789abcdef".data) := by
  intro c hc
  have hc2 : c ∈ (bs.map byteToHex).flatten := hc
  obtain ⟨sub, hsub, hcsub⟩ := List.mem_flatten.mp hc2
  obtain ⟨b, hb, hbeq⟩ := List.mem_map.mp hsub
  rw [← hbeq, byteToHex] at hcsub
  rcases List.mem_cons.mp hcsub with h | h
  · subst h
    exact hexChar_mem (by have := hlt b hb; omega)
  · rcases List.mem_cons.mp h with h2 | h2
    · subst h2
      exact hexChar_mem (Nat.mod_lt _ (by norm_num))
    · cases h2

set_option maxRecDepth 40000 in
/-- C3: `taggingJobId` is a deterministic function of the repository id
alone; its result is the fixed string `tagging-` followed by the
hex-encoded SHA-1 digest of the id (40 lowercase hex characters); two
calls with the same repository id agree; the job enqueued by admission for
the `r1` scenario carries `jobId = taggingJobId "r1"`, whose value is the
actual SHA-1 digest of `r1`. -/
theorem taggingJobId_shape :
    (∀ a b : String, a = b → taggingJobId a = taggingJobId b) ∧
    (∀ r, taggingJobId r = "tagging-" ++ bytesToHex (sha1Digest (utf8Bytes r))) ∧
    (∀ r, (bytesToHex (sha1Digest (utf8Bytes r))).length = 40 ∧
      ∀ c ∈ (bytesToHex (sha1Digest (utf8Bytes r))).data,
        c ∈ ("0123456789abcdef".data)) ∧
    (handleMessage emptyDb 0 (some legacyReadyMsg)).enqueued =
      some ⟨"tag-repository", ⟨"r1", .event, none⟩, taggingJobId "r1"⟩ ∧
    taggingJobId "r1" = "tagging-5573e39b6600496d40f493d00ec7658479a19607" := by
  refine ⟨fun a b h => congrArg taggingJobId h, fun r => rfl, ?_, by rfl, by decide⟩
  intro r
  constructor
  · rw [bytesToHex_length, sha1Digest_length]
  · exact mem_bytesToHex (sha1Digest_bytes_lt _)

/-- C3 witness: determinism and digest shape at the concrete id `r1`. -/
theorem taggingJobId_shape_witness :
    taggingJobId "r1" = taggingJobId "r1" ∧
    (bytesToHex (sha1Digest (utf8Bytes "r1"))).length = 40 :=
  ⟨taggingJobId_shape.1 "r1" "r1" rfl, (taggingJobId_shape.2.2.1 "r1").1⟩

end Tagging
